import Mathlib

/-!
# ACD4: Rabin-Karp and Boyer-Moore record search

A shallow embedding of `src/ACD4.cpp` and theorems about it.

Conventions of the embedding

* A C++ `std::string` is a list of bytes (`Str`).  Lengths are assumed to fit
  an `int`, as the source itself assumes when it stores `size()` in an `int`.
* `uint64_t` values are natural numbers; every 64-bit operation is written
  with an explicit reduction modulo `2 ^ 64`.
* `int` values are integers.
* In the Boyer-Moore code every element access `v[k]` is bounds-checked by the
  model and the functions return an `Option`: `none` means that the C++
  execution has no defined result there (an access outside the container, or a
  scan that never leaves its loop).
-/

namespace ACD4

/-! ## Data model -/

/-- One byte of a `std::string`. -/
abbrev Byte := Fin 256

/-- A `std::string`: a finite sequence of bytes. -/
abbrev Str := List Byte

/-- The `Record` struct: four fields of the input line and its line number. -/
structure Record where
  time : Str
  name : Str
  serialNum : Int
  description : Str
  originalLine : Int
deriving DecidableEq

/-! ## 64-bit unsigned arithmetic -/

/-- Two to the power 64, the number of `uint64_t` values. -/
def wordSize : Nat := 2 ^ 64

/-- Addition of `uint64_t`. -/
def u64add (a b : Nat) : Nat := (a + b) % wordSize

/-- Subtraction of `uint64_t`: wraps around when `b > a`. -/
def u64sub (a b : Nat) : Nat := (a % wordSize + wordSize - b % wordSize) % wordSize

/-- Multiplication of `uint64_t`. -/
def u64mul (a b : Nat) : Nat := (a * b) % wordSize

/-- The conversion `(uint64_t)c` of a `char`.  `char` is a signed type on the
x86 targets, so a byte of value 128 or more is sign-extended; a byte below 128
converts to its own value whatever the signedness of `char`. -/
def charVal (c : Byte) : Nat :=
  if c.val < 128 then c.val else wordSize - 256 + c.val

/-- The element `s[i]` of a string, at an index the caller keeps in range. -/
def byteAt (s : Str) (i : Nat) : Byte := s.getD i 0

/-! ## Rabin-Karp -/

/-- The constant `base` of `rabinKarpSearch`. -/
def base : Nat := 911382629

/-- The constant `mod` of `rabinKarpSearch`. -/
def mod : Nat := 1000000007

/-- One step `h = (h * base + (uint64_t)c) % mod` of the polynomial hash. -/
def hashStep (h : Nat) (c : Byte) : Nat :=
  u64add (u64mul h base) (charVal c) % mod

/-- The loop `for (const auto& p : patterns) maxPatternLen = max(maxPatternLen, p.size())`. -/
def maxPatternLenOf (patterns : List Str) : Nat :=
  patterns.foldl (fun m p => max m p.length) 0

/-- The hash `pHash` of one pattern (lines 43-46). -/
def patternHash (p : Str) : Nat := p.foldl hashStep 0

/-- The loop computing `basePower` (lines 51-54): `n` multiplications by `base`. -/
def basePowerLoop : Nat → Nat → Nat
  | 0, bp => bp
  | n + 1, bp => basePowerLoop n (u64mul bp base % mod)

/-- The value of `basePower` for a window of `maxPatternLen` bytes. -/
def basePowerOf (maxPatternLen : Nat) : Nat := basePowerLoop (maxPatternLen - 1) 1

/-- The hash of the first window (lines 57-60): bytes `text[0] .. text[len-1]`. -/
def firstWindowHash (text : Str) (len : Nat) : Nat :=
  (List.range len).foldl (fun h i => hashStep h (byteAt text i)) 0

/-- The two assignments of lines 88-89, moving the window from `i` to `i + 1`. -/
def slideHash (text : Str) (len i basePower windowHash : Nat) : Nat :=
  let h := u64add (u64sub windowHash (u64mul (charVal (byteAt text i)) basePower) % mod) mod % mod
  u64add (u64mul h base) (charVal (byteAt text (i + len))) % mod

/-- The comparison loop of lines 72-78: does `p` stand in `text` at offset `i`. -/
def isMatchAt (text p : Str) (i : Nat) : Bool :=
  (List.range p.length).all (fun j => byteAt text (i + j) == byteAt p j)

/-- The entry `patternHashMap[h]`: the patterns of hash `h`, in insertion order. -/
def bucket (patterns : List Str) (h : Nat) : List Str :=
  patterns.filter (fun p => patternHash p = h)

/-- The counters of the scan: `windowHash`, `patternOccurrences` and
`matchedPatternCount`. -/
structure RKState where
  windowHash : Nat
  patternOccurrences : Str → Nat
  matchedPatternCount : Nat

/-- The loop over one bucket (lines 69-83) at window offset `i`. -/
def verifyBucket (text : Str) (maxPatternLen i : Nat) :
    List Str → (Str → Nat) × Nat → (Str → Nat) × Nat
  | [], st => st
  | p :: rest, (occ, cnt) =>
    if p.length ≠ maxPatternLen then verifyBucket text maxPatternLen i rest (occ, cnt)
    else if isMatchAt text p i then
      verifyBucket text maxPatternLen i rest
        (fun q => if q = p then occ q + 1 else occ q, if occ p = 0 then cnt + 1 else cnt)
    else verifyBucket text maxPatternLen i rest (occ, cnt)

/-- One iteration of the sliding loop (lines 66-91) at offset `i`. -/
def rkStep (text : Str) (patterns : List Str) (maxPatternLen basePower i : Nat)
    (st : RKState) : RKState :=
  let r := verifyBucket text maxPatternLen i (bucket patterns st.windowHash)
    (st.patternOccurrences, st.matchedPatternCount)
  { windowHash :=
      if i < text.length - maxPatternLen then
        slideHash text maxPatternLen i basePower st.windowHash
      else st.windowHash
    patternOccurrences := r.1
    matchedPatternCount := r.2 }

/-- The sliding loop: `n` iterations starting at offset `i`. -/
def rkLoop (text : Str) (patterns : List Str) (maxPatternLen basePower : Nat) :
    Nat → Nat → RKState → RKState
  | 0, _, st => st
  | n + 1, i, st =>
    rkLoop text patterns maxPatternLen basePower n (i + 1)
      (rkStep text patterns maxPatternLen basePower i st)

/-- The state on entry to the sliding loop: the hash of the first window and
empty counters (lines 57-63). -/
def rkInit (text : Str) (maxPatternLen : Nat) : RKState :=
  { windowHash := firstWindowHash text maxPatternLen
    patternOccurrences := fun _ => 0
    matchedPatternCount := 0 }

/-- The state after the first `n` iterations of the sliding loop; its
`windowHash` is the hash the code holds for the window at offset `n`. -/
def rkAfter (text : Str) (patterns : List Str) (n : Nat) : RKState :=
  rkLoop text patterns (maxPatternLenOf patterns) (basePowerOf (maxPatternLenOf patterns))
    n 0 (rkInit text (maxPatternLenOf patterns))

/-- The state after the whole sliding loop, for `maxPatternLen ≤ text.length`:
the offsets `0 .. textLen - maxPatternLen` have been visited. -/
def rkFinal (text : Str) (patterns : List Str) : RKState :=
  rkAfter text patterns (text.length - maxPatternLenOf patterns + 1)

/-- The function `rabinKarpSearch` (lines 27-100). -/
def rabinKarpSearch (text : Str) (patterns : List Str) (isCountOccurrences : Bool)
    (targetCount : Int) : Int :=
  if patterns.isEmpty || text.isEmpty then 0
  else if maxPatternLenOf patterns > text.length then 0
  else
    let st := rkFinal text patterns
    if isCountOccurrences then
      match patterns with
      | [p] => if (st.patternOccurrences p : Int) ≥ targetCount then 1 else 0
      | _ => 0
    else
      if (st.matchedPatternCount : Int) ≥ targetCount then 1 else 0

/-! ## Boyer-Moore -/

/-- A checked read `v[k]` of a `vector<int>`. -/
def rdI (v : List Int) (k : Int) : Option Int :=
  if 0 ≤ k then v[k.toNat]? else none

/-- A checked write `v[k] = x` of a `vector<int>`. -/
def wrI (v : List Int) (k : Int) (x : Int) : Option (List Int) :=
  if 0 ≤ k ∧ k.toNat < v.length then some (v.set k.toNat x) else none

/-- A checked read `s[k]` of a string. -/
def rdB (s : Str) (k : Int) : Option Byte :=
  if 0 ≤ k then s[k.toNat]? else none

/-- The call `v.resize(n, x)`. -/
def resize (v : List Int) (n : Nat) (x : Int) : List Int :=
  v.take n ++ List.replicate (n - v.length) x

/-- The loop of `preprocessBadChar` (lines 107-109), from index `i` on. -/
def badCharLoop : Str → Nat → List Int → List Int
  | [], _, badChar => badChar
  | c :: rest, i, badChar => badCharLoop rest (i + 1) (badChar.set c.val (i : Int))

/-- The function `preprocessBadChar` (lines 104-110). -/
def preprocessBadChar (pattern : Str) (badChar : List Int) : List Int :=
  badCharLoop pattern 0 (resize badChar 256 (-1))

/-- The loop `while (lastPos >= 0 && pattern[lastPos] == pattern[lastPos + pLen - 1 - i]) lastPos--`
(lines 125-127), entered with `lastPos = n - 1`. -/
def suffixWhile (pattern : Str) (i : Int) : Nat → Option Int
  | 0 => some (-1)
  | g + 1 =>
    match rdB pattern (g : Int), rdB pattern ((g : Int) + (pattern.length : Int) - 1 - i) with
    | some a, some b => if a = b then suffixWhile pattern i g else some (g : Int)
    | _, _ => none

/-- The else branch of the first loop of `preprocessGoodSuffix` (lines 124-128). -/
def suffixElse (pattern : Str) (i : Int) (suffix : List Int) (lastPos : Int) :
    Option (List Int × Int) :=
  let lastPos1 := min i lastPos
  match (if lastPos1 < 0 then some lastPos1 else suffixWhile pattern i (lastPos1.toNat + 1)) with
  | none => none
  | some lastPos2 =>
    match wrI suffix i (i - lastPos2) with
    | none => none
    | some suffix1 => some (suffix1, lastPos2)

/-- One iteration of the first loop of `preprocessGoodSuffix` (lines 120-129). -/
def suffixStep (pattern : Str) (i : Int) (suffix : List Int) (lastPos : Int) :
    Option (List Int × Int) :=
  if i > lastPos then
    match rdI suffix (i + (pattern.length : Int) - 1 - lastPos) with
    | none => none
    | some v =>
      if v < i - lastPos then
        match wrI suffix i v with
        | none => none
        | some suffix1 => some (suffix1, lastPos)
      else suffixElse pattern i suffix lastPos
  else suffixElse pattern i suffix lastPos

/-- The first loop of `preprocessGoodSuffix` (lines 119-130): the iterations
`i = n - 1, n - 2, ..., 0`. -/
def suffixLoop (pattern : Str) : Nat → List Int → Int → Option (List Int × Int)
  | 0, suffix, lastPos => some (suffix, lastPos)
  | n + 1, suffix, lastPos =>
    match suffixStep pattern (n : Int) suffix lastPos with
    | none => none
    | some (suffix1, lastPos1) => suffixLoop pattern n suffix1 lastPos1

/-- The array `suffix` after the first loop of `preprocessGoodSuffix`. -/
def suffixArray (pattern : Str) : Option (List Int) :=
  match suffixLoop pattern (pattern.length - 1) (List.replicate pattern.length 0)
      ((pattern.length : Int) - 1) with
  | none => none
  | some (suffix, _) => some suffix

/-- The loop `for (int i = 0; i < pLen; ++i) goodSuffix[i] = pLen` (line 132). -/
def initLoop (pLen : Int) : Nat → Int → List Int → Option (List Int)
  | 0, _, goodSuffix => some goodSuffix
  | n + 1, i, goodSuffix =>
    match wrI goodSuffix i pLen with
    | none => none
    | some g => initLoop pLen n (i + 1) g

/-- The loop `while (j < pLen - 1 - i && goodSuffix[j] == pLen)` (lines 136-139);
the first argument is the number of values of `j` below `pLen - 1 - i`. -/
def fillWhile (pLen i : Int) : Nat → List Int → Int → Option (List Int × Int)
  | 0, goodSuffix, j => some (goodSuffix, j)
  | n + 1, goodSuffix, j =>
    match rdI goodSuffix j with
    | none => none
    | some v =>
      if v = pLen then
        match wrI goodSuffix j (pLen - 1 - i) with
        | none => none
        | some g => fillWhile pLen i n g (j + 1)
      else some (goodSuffix, j)

/-- The second loop of `preprocessGoodSuffix` (lines 134-141): the iterations
`i = n - 1, ..., 0`. -/
def prefixLoop (pLen : Int) (suffix : List Int) : Nat → List Int → Int → Option (List Int × Int)
  | 0, goodSuffix, j => some (goodSuffix, j)
  | n + 1, goodSuffix, j =>
    match rdI suffix (n : Int) with
    | none => none
    | some s =>
      if s = (n : Int) + 1 then
        match fillWhile pLen (n : Int) (pLen - 1 - (n : Int) - j).toNat goodSuffix j with
        | none => none
        | some (g, j1) => prefixLoop pLen suffix n g j1
      else prefixLoop pLen suffix n goodSuffix j

/-- The third loop of `preprocessGoodSuffix` (lines 142-144): `n` iterations
from index `i` on. -/
def shiftLoop (pLen : Int) (suffix : List Int) : Nat → Int → List Int → Option (List Int)
  | 0, _, goodSuffix => some goodSuffix
  | n + 1, i, goodSuffix =>
    match rdI suffix i with
    | none => none
    | some s =>
      match wrI goodSuffix (pLen - 1 - s) (pLen - 1 - i) with
      | none => none
      | some g => shiftLoop pLen suffix n (i + 1) g

/-- The function `preprocessGoodSuffix` (lines 113-145). -/
def preprocessGoodSuffix (pattern : Str) (goodSuffix : List Int) : Option (List Int) :=
  let pLen : Int := pattern.length
  match suffixArray pattern with
  | none => none
  | some suffix =>
    match initLoop pLen pattern.length 0 (resize goodSuffix pattern.length 0) with
    | none => none
    | some g0 =>
      match prefixLoop pLen suffix pattern.length g0 0 with
      | none => none
      | some (g1, _) => shiftLoop pLen suffix (pattern.length - 1) 0 g1

/-- The loop `while (j >= 0 && text[i + j] == pattern[j]) j--` (line 163), entered
with `j = n - 1`; the result is the final `j`. -/
def compareWhile (text pattern : Str) (i : Int) : Nat → Option Int
  | 0 => some (-1)
  | j + 1 =>
    match rdB text (i + (j : Int)), rdB pattern (j : Int) with
    | some a, some b => if a = b then compareWhile text pattern i j else some (j : Int)
    | _, _ => none

/-- The scan loop of `boyerMooreSearch` (lines 161-176) over given tables; the
first argument bounds the number of iterations, the result is `occurrenceCount`. -/
def bmLoop (text pattern : Str) (badChar goodSuffix : List Int) :
    Nat → Int → Int → Option Int
  | 0, i, occurrenceCount =>
    if i ≤ (text.length : Int) - (pattern.length : Int) then none else some occurrenceCount
  | fuel + 1, i, occurrenceCount =>
    if i ≤ (text.length : Int) - (pattern.length : Int) then
      match compareWhile text pattern i pattern.length with
      | none => none
      | some j =>
        if j < 0 then
          if i + (pattern.length : Int) < (text.length : Int) then
            match rdI goodSuffix 0 with
            | none => none
            | some s => bmLoop text pattern badChar goodSuffix fuel (i + s) (occurrenceCount + 1)
          else bmLoop text pattern badChar goodSuffix fuel (i + 1) (occurrenceCount + 1)
        else
          match rdB text (i + j) with
          | none => none
          | some c =>
            match rdI badChar (c.val : Int), rdI goodSuffix j with
            | some b, some goodStep =>
              bmLoop text pattern badChar goodSuffix fuel (i + max (j - b) goodStep) occurrenceCount
            | _, _ => none
    else some occurrenceCount

/-- The value of `occurrenceCount` when the scan of `boyerMooreSearch` ends.  The
scan visits alignments `0 .. textLen - pLen`; a run of more than
`textLen - pLen + 1` iterations repeats an alignment and so never ends. -/
def bmCount (text pattern : Str) : Option Int :=
  match preprocessGoodSuffix pattern (List.replicate pattern.length 0) with
  | none => none
  | some goodSuffix =>
    bmLoop text pattern (preprocessBadChar pattern (List.replicate 256 (-1))) goodSuffix
      (text.length - pattern.length + 1) 0 0

/-- The function `boyerMooreSearch` (lines 148-179). -/
def boyerMooreSearch (text pattern : Str) (targetCount : Int) : Option Int :=
  if pattern.length = 0 ∨ text.length < pattern.length then some 0
  else
    match bmCount text pattern with
    | none => none
    | some occurrenceCount => some (if occurrenceCount ≥ targetCount then 1 else 0)

/-! ## The search loop of the driver -/

/-- The parameters read by `main` before the search. -/
structure Config where
  searchField : Int
  algorithmType : Int
  patterns : List Str
  targetCount : Int

/-- The text searched in a record: `(searchField == 1) ? record.name : record.description`. -/
def targetText (searchField : Int) (record : Record) : Str :=
  if searchField = 1 then record.name else record.description

/-- The value `isMatched` computed for one record (lines 341-349). -/
def isMatchedOf (cfg : Config) (record : Record) : Option Int :=
  if cfg.algorithmType = 1 then
    some (rabinKarpSearch (targetText cfg.searchField record) cfg.patterns false cfg.targetCount)
  else
    match cfg.patterns with
    | [] => none
    | p :: _ => boyerMooreSearch (targetText cfg.searchField record) p cfg.targetCount

/-- The loop `for (const auto& record : data)` of `main` (lines 340-354); the
second argument is `matchedRecords`. -/
def searchLoop (cfg : Config) : List Record → List Record → Option (List Record)
  | [], matchedRecords => some matchedRecords
  | record :: rest, matchedRecords =>
    match isMatchedOf cfg record with
    | none => none
    | some isMatched =>
      searchLoop cfg rest (if isMatched ≠ 0 then matchedRecords ++ [record] else matchedRecords)

/-- The value `isMatched` of lines 341-349 when the calls of `boyerMooreSearch`
return what the function `bm` gives. -/
def isMatchedWith (bm : Str → Str → Int → Option Int) (cfg : Config) (record : Record) :
    Option Int :=
  if cfg.algorithmType = 1 then
    some (rabinKarpSearch (targetText cfg.searchField record) cfg.patterns false cfg.targetCount)
  else
    match cfg.patterns with
    | [] => none
    | p :: _ => bm (targetText cfg.searchField record) p cfg.targetCount

/-- The loop of lines 340-354 when the calls of `boyerMooreSearch` return what
the function `bm` gives. -/
def searchLoopWith (bm : Str → Str → Int → Option Int) (cfg : Config) :
    List Record → List Record → Option (List Record)
  | [], matchedRecords => some matchedRecords
  | record :: rest, matchedRecords =>
    match isMatchedWith bm cfg record with
    | none => none
    | some isMatched =>
      searchLoopWith bm cfg rest
        (if isMatched ≠ 0 then matchedRecords ++ [record] else matchedRecords)

/-! ## Ground truth: the naive substring scan -/

/-- Does `p` stand in `text` at offset `i`: `text[i .. i + |p|) = p`. -/
def occursAt (text p : Str) (i : Nat) : Prop := (text.drop i).take p.length = p

instance (text p : Str) (i : Nat) : Decidable (occursAt text p i) := by
  unfold occursAt; infer_instance

/-- The number of offsets at which `p` stands in `text`, overlaps included. -/
def naiveCount (text p : Str) : Nat :=
  ((List.range (text.length + 1 - p.length)).filter (fun i => decide (occursAt text p i))).length

/-- The bytes of a string literal made of ASCII characters. -/
def ascii (s : String) : Str := s.data.map (fun c => Fin.ofNat c.toNat)

/-- A sample configuration: search the name field with
Rabin-Karp for the pattern "ab", target 1. -/
def sampleConfig : Config :=
  { searchField := 1, algorithmType := 1, patterns := [ascii "ab"], targetCount := 1 }

/-- Three sample records, named "abx", "zzz" and "ab". -/
def sampleData : List Record :=
  [ { time := ascii "01.01.2016", name := ascii "abx", serialNum := 7,
      description := ascii "d", originalLine := 1 },
    { time := ascii "02.01.2016", name := ascii "zzz", serialNum := 8,
      description := ascii "ab", originalLine := 2 },
    { time := ascii "03.01.2016", name := ascii "ab", serialNum := 9,
      description := ascii "", originalLine := 3 } ]

/-- A second sample configuration: search the description field with
Boyer-Moore for the pattern "ab", target 1. -/
def sampleConfigBM : Config :=
  { searchField := 2, algorithmType := 2, patterns := [ascii "ab"], targetCount := 1 }

/-! ## Auxiliary notions for the statements -/

/-- The counter `matchedPatternCount` counts the strings with a non-zero entry
in `patternOccurrences`. -/
def CountInv (occ : Str → Nat) (cnt : Nat) : Prop :=
  ∃ S : Finset Str, S.card = cnt ∧ ∀ p, p ∈ S ↔ occ p ≠ 0

/-- The pattern list with every pattern shorter than the longest one removed. -/
def maximalPatterns (patterns : List Str) : List Str :=
  patterns.filter (fun p => decide (¬ p.length < maxPatternLenOf patterns))

/-- The last `k` bytes of `pattern[0 .. i]` are the last `k` bytes of `pattern`. -/
def isCommonSuffix (pattern : Str) (i k : Nat) : Bool :=
  decide (k ≤ i + 1) &&
    ((pattern.take (i + 1)).drop (i + 1 - k) == pattern.drop (pattern.length - k))

/-- The length of the longest string that is both a suffix of `pattern[0 .. i]`
and a suffix of the whole pattern. -/
def commonSuffixLen (pattern : Str) (i : Nat) : Nat :=
  ((List.range (i + 2)).filter (isCommonSuffix pattern i)).foldl max 0

/-- One iteration of the scan loop of `boyerMooreSearch` at alignment `i`
(lines 162-175): the amount added to `i`, and whether an occurrence was counted. -/
def bmStep (text pattern : Str) (badChar goodSuffix : List Int) (i : Int) :
    Option (Int × Bool) :=
  match compareWhile text pattern i pattern.length with
  | none => none
  | some j =>
    if j < 0 then
      if i + (pattern.length : Int) < (text.length : Int) then
        match rdI goodSuffix 0 with
        | none => none
        | some s => some (s, true)
      else some (1, true)
    else
      match rdB text (i + j) with
      | none => none
      | some c =>
        match rdI badChar (c.val : Int), rdI goodSuffix j with
        | some b, some goodStep => some (max (j - b) goodStep, false)
        | _, _ => none

/-- The scan started at alignment `i` leaves its loop after exactly `n` iterations. -/
def exitsIn (text pattern : Str) (badChar goodSuffix : List Int) : Nat → Int → Prop
  | 0, i => ¬ i ≤ (text.length : Int) - (pattern.length : Int)
  | n + 1, i => i ≤ (text.length : Int) - (pattern.length : Int) ∧
      ∃ s b, bmStep text pattern badChar goodSuffix i = some (s, b) ∧
        exitsIn text pattern badChar goodSuffix n (i + s)

/-! ## Boyer-Moore on concrete inputs -/

/-- C4: on text "aaaa" and pattern "aa" the scan counts the three overlapping
occurrences at offsets 0, 1 and 2, so a target of 3 is met and a target of 4 is not. -/
theorem boyerMooreSearch_aaaa_aa :
    bmCount (ascii "aaaa") (ascii "aa") = some 3 ∧
    boyerMooreSearch (ascii "aaaa") (ascii "aa") 3 = some 1 ∧
    boyerMooreSearch (ascii "aaaa") (ascii "aa") 4 = some 0 := by
  decide

/-- C1 fails at text "abaaa", pattern "aaa", target 1.  The pattern stands once in
the text (offset 2), so the claim asks for the result 1.  In `preprocessGoodSuffix`
the iteration `i = 1` leaves `suffix = [0, 2, 0]` and `lastPos = -1`; the iteration
`i = 0` then has `i > lastPos` and reads `suffix[i + pLen - 1 - lastPos] = suffix[3]`
in a vector of three elements.  The search has no defined result. -/
theorem boyerMooreSearch_abaaa_undefined :
    naiveCount (ascii "abaaa") (ascii "aaa") = 1 ∧
    suffixStep (ascii "aaa") 1 [0, 0, 0] 2 = some ([0, 2, 0], -1) ∧
    rdI [0, 2, 0] (0 + 3 - 1 - (-1)) = none ∧
    suffixStep (ascii "aaa") 0 [0, 2, 0] (-1) = none ∧
    preprocessGoodSuffix (ascii "aaa") [0, 0, 0] = none ∧
    boyerMooreSearch (ascii "abaaa") (ascii "aaa") 1 = none := by
  decide

set_option maxRecDepth 100000 in
/-- What the stray read of `suffix[3]` leads to when the word behind the vector
holds 0 (modelled by a fourth element): `suffix[0]` becomes 0 instead of 1, the
good-suffix table becomes `[1, 3, 2]` instead of `[1, 2, 3]`, and the scan of
"abaaa" jumps from alignment 0 to alignment 3, past the occurrence at offset 2. -/
theorem bmLoop_abaaa_stale_table :
    suffixLoop (ascii "aaa") 2 [0, 0, 0, 0] 2 = some ([0, 2, 0, 0], -1) ∧
    prefixLoop 3 [0, 2, 0] 3 [3, 3, 3] 0 = some ([1, 3, 3], 1) ∧
    shiftLoop 3 [0, 2, 0] 2 0 [1, 3, 3] = some [1, 3, 2] ∧
    bmLoop (ascii "abaaa") (ascii "aaa")
      (preprocessBadChar (ascii "aaa") (List.replicate 256 (-1))) [1, 3, 2] 3 0 0 = some 0 := by
  decide

/-! ## Rabin-Karp on concrete inputs -/

/-- C9 fails at text "xab", window length 2, offset 1.  The first window "xa" has
hash 365914814; the subtraction `windowHash - 'x' * basePower` of line 88 is done
on `uint64_t` and wraps around (365914814 < 120 * 911382629), so the hash held
for the window at offset 1 is 682384064, while the hash of "ab" computed from
scratch is 404114495. -/
theorem windowHash_xab_differs :
    firstWindowHash (ascii "xab") 2 = 365914814 ∧
    basePowerOf 2 = 911382629 ∧
    u64sub 365914814 (u64mul (charVal 120) 911382629) = 2 ^ 64 - 109000000666 ∧
    (rkAfter (ascii "xab") [ascii "ab"] 1).windowHash = 682384064 ∧
    patternHash (((ascii "xab").drop 1).take 2) = 404114495 := by
  decide

/-- C2 fails at text "xab", patterns ["ab"], target 1: the only pattern has the
maximal length and stands in the text at offset 1, yet the distinct-pattern
search returns 0. -/
theorem rabinKarpSearch_xab_distinct :
    (ascii "ab").length = maxPatternLenOf [ascii "ab"] ∧
    occursAt (ascii "xab") (ascii "ab") 1 ∧
    (rkFinal (ascii "xab") [ascii "ab"]).matchedPatternCount = 0 ∧
    rabinKarpSearch (ascii "xab") [ascii "ab"] false 1 = 0 := by
  decide

/-- C3 fails at text "abab", pattern "ab", target 2: the naive scan counts 2
occurrences (offsets 0 and 2), the occurrence counter of the code ends at 1, and
the single-pattern search returns 0. -/
theorem rabinKarpSearch_abab_occurrences :
    naiveCount (ascii "abab") (ascii "ab") = 2 ∧
    (rkFinal (ascii "abab") [ascii "ab"]).patternOccurrences (ascii "ab") = 1 ∧
    rabinKarpSearch (ascii "abab") [ascii "ab"] true 2 = 0 := by
  decide

set_option maxRecDepth 100000 in
/-- C5 fails in its first half: on text "Lopez, Anthony" with patterns
["Lopez", "Anthony"] the window length is 7 and "Anthony" stands at offset 7, but
the hash held for that window is 232987035 while the hash of "Anthony" is
883610184, so no pattern is matched: the search returns 0 for target 1 (and for
target 2). -/
theorem rabinKarpSearch_lopez_anthony :
    maxPatternLenOf [ascii "Lopez", ascii "Anthony"] = 7 ∧
    occursAt (ascii "Lopez, Anthony") (ascii "Anthony") 7 ∧
    (rkAfter (ascii "Lopez, Anthony") [ascii "Lopez", ascii "Anthony"] 7).windowHash
      = 232987035 ∧
    patternHash (ascii "Anthony") = 883610184 ∧
    (rkFinal (ascii "Lopez, Anthony") [ascii "Lopez", ascii "Anthony"]).matchedPatternCount
      = 0 ∧
    rabinKarpSearch (ascii "Lopez, Anthony") [ascii "Lopez", ascii "Anthony"] false 1 = 0 ∧
    rabinKarpSearch (ascii "Lopez, Anthony") [ascii "Lopez", ascii "Anthony"] false 2 = 0 := by
  decide

/-! ## Degenerate inputs -/

/-- C6: `rabinKarpSearch` returns 0 for every mode flag and every target count
when the pattern list is empty, the text is empty, or the longest pattern is
longer than the text. -/
theorem rabinKarpSearch_degenerate (text : Str) (patterns : List Str)
    (isCountOccurrences : Bool) (targetCount : Int)
    (h : patterns = [] ∨ text = [] ∨ text.length < maxPatternLenOf patterns) :
    rabinKarpSearch text patterns isCountOccurrences targetCount = 0 := by
  unfold rabinKarpSearch
  rcases h with h | h | h
  · simp [h]
  · simp [h]
  · simp [h]

/-- Witness of C6: the pattern "abc" is longer than the text "ab"; mode flag set
and a negative target. -/
theorem rabinKarpSearch_degenerate_witness :
    (ascii "ab").length < maxPatternLenOf [ascii "abc"] ∧
    rabinKarpSearch (ascii "ab") [ascii "abc"] true (-5) = 0 :=
  ⟨by decide, rabinKarpSearch_degenerate (ascii "ab") [ascii "abc"] true (-5)
    (Or.inr (Or.inr (by decide)))⟩

/-- C7: `boyerMooreSearch` returns 0 for every target count when the pattern is
empty or longer than the text. -/
theorem boyerMooreSearch_degenerate (text pattern : Str) (targetCount : Int)
    (h : pattern = [] ∨ text.length < pattern.length) :
    boyerMooreSearch text pattern targetCount = some 0 := by
  unfold boyerMooreSearch
  rcases h with h | h
  · simp [h]
  · simp [h]

/-- Witness of C7: the pattern "aaa" is longer than the text "aa"; target 0. -/
theorem boyerMooreSearch_degenerate_witness :
    (ascii "aa").length < (ascii "aaa").length ∧
    boyerMooreSearch (ascii "aa") (ascii "aaa") 0 = some 0 :=
  ⟨by decide, boyerMooreSearch_degenerate (ascii "aa") (ascii "aaa") 0 (Or.inr (by decide))⟩

/-! ## The bad-character table -/

theorem length_resize (v : List Int) (n : Nat) (x : Int) : (resize v n x).length = n := by
  simp [resize]; omega

theorem resize_all (v : List Int) (n : Nat) (x : Int) (h : ∀ y ∈ v, y = x) :
    ∀ y ∈ resize v n x, y = x := by
  intro y hy
  simp only [resize, List.mem_append, List.mem_replicate] at hy
  rcases hy with hy | hy
  · exact h y (List.mem_of_mem_take hy)
  · exact hy.2

/-- A byte that the pattern does not hold keeps its entry. -/
theorem badCharLoop_absent (c : Byte) (p : Str) : ∀ (i : Nat) (bc : List Int), c ∉ p →
    (badCharLoop p i bc)[c.val]? = bc[c.val]? := by
  induction p with
  | nil => intro i bc _; rfl
  | cons d rest ih =>
    intro i bc hc
    have hd : d ≠ c := fun e => hc (e ▸ List.mem_cons_self _ _)
    have hrest : c ∉ rest := fun e => hc (List.mem_cons_of_mem _ e)
    have hv : d.val ≠ c.val := fun e => hd (Fin.ext e)
    simp only [badCharLoop]
    rw [ih _ _ hrest, List.getElem?_set_ne hv]

/-- A byte of the pattern gets the index of its last occurrence. -/
theorem badCharLoop_present (c : Byte) (p : Str) : ∀ (i : Nat) (bc : List Int),
    c.val < bc.length → c ∈ p →
    ∃ k : Nat, p[k]? = some c ∧ (∀ j, k < j → p[j]? ≠ some c) ∧
      (badCharLoop p i bc)[c.val]? = some (((i + k : Nat) : Int)) := by
  induction p with
  | nil => intro i bc _ hc; simp at hc
  | cons d rest ih =>
    intro i bc hlen hc
    simp only [badCharLoop]
    by_cases hrest : c ∈ rest
    · obtain ⟨k, hk, hmax, hval⟩ :=
        ih (i + 1) (bc.set d.val (i : Int)) (by simpa using hlen) hrest
      refine ⟨k + 1, by simpa using hk, ?_, ?_⟩
      · intro j hj
        obtain ⟨j', rfl⟩ : ∃ j', j = j' + 1 := ⟨j - 1, by omega⟩
        simpa using hmax j' (by omega)
      · rw [hval]; congr 2; omega
    · have hcd : c = d := by
        rcases List.mem_cons.mp hc with e | e
        · exact e
        · exact absurd e hrest
      subst hcd
      refine ⟨0, by simp, ?_, ?_⟩
      · intro j hj
        obtain ⟨j', rfl⟩ : ∃ j', j = j' + 1 := ⟨j - 1, by omega⟩
        intro e
        have : rest[j']? = some c := by simpa using e
        exact hrest (List.getElem?_mem this)
      · rw [badCharLoop_absent c rest _ _ hrest]
        simp [List.getElem?_set_self, hlen]

/-- C10: after `preprocessBadChar`, run on a table whose entries (if any) are all
-1 as in `boyerMooreSearch`, the entry of a byte `c` is the largest index at which
`c` stands in the pattern when `c` occurs in it, and -1 when it does not. -/
theorem preprocessBadChar_spec (pattern : Str) (badChar : List Int) (c : Byte)
    (h : ∀ x ∈ badChar, x = -1) :
    (c ∈ pattern → ∃ k : Nat, (preprocessBadChar pattern badChar)[c.val]? = some (k : Int) ∧
        pattern[k]? = some c ∧ ∀ j, k < j → pattern[j]? ≠ some c) ∧
    (c ∉ pattern → (preprocessBadChar pattern badChar)[c.val]? = some (-1)) := by
  have hlen : c.val < (resize badChar 256 (-1)).length := by
    rw [length_resize]; exact c.isLt
  constructor
  · intro hc
    obtain ⟨k, hk, hmax, hval⟩ := badCharLoop_present c pattern 0 _ hlen hc
    exact ⟨k, by simpa [preprocessBadChar] using hval, hk, hmax⟩
  · intro hc
    unfold preprocessBadChar
    rw [badCharLoop_absent c pattern _ _ hc, List.getElem?_eq_getElem hlen]
    exact congrArg some (resize_all badChar 256 (-1) h _ (List.getElem_mem _))

/-- Witness of C10: the table of "abca" built from the 256 entries -1 of
`boyerMooreSearch`; the byte 'a' occurs (last at index 3), the byte 'z' does not. -/
theorem preprocessBadChar_spec_witness :
    (∀ x ∈ List.replicate 256 (-1 : Int), x = -1) ∧
    (∃ k : Nat, (preprocessBadChar (ascii "abca") (List.replicate 256 (-1)))[(97 : Byte).val]?
        = some (k : Int) ∧
      (ascii "abca")[k]? = some 97 ∧ ∀ j, k < j → (ascii "abca")[j]? ≠ some 97) ∧
    (preprocessBadChar (ascii "abca") (List.replicate 256 (-1)))[(122 : Byte).val]?
      = some (-1) :=
  have h : ∀ x ∈ List.replicate 256 (-1 : Int), x = -1 := fun _ hx => (List.mem_replicate.mp hx).2
  ⟨h,
   (preprocessBadChar_spec (ascii "abca") (List.replicate 256 (-1)) 97 h).1 (by decide),
   (preprocessBadChar_spec (ascii "abca") (List.replicate 256 (-1)) 122 h).2 (by decide)⟩

/-! ## The search loop of the driver -/

/-- The driver loop is the parametrised loop run with `boyerMooreSearch`. -/
theorem searchLoop_eq_searchLoopWith (cfg : Config) (data : List Record) :
    ∀ acc : List Record, searchLoop cfg data acc = searchLoopWith boyerMooreSearch cfg data acc := by
  induction data with
  | nil => intro acc; rfl
  | cons r rest ih =>
    intro acc
    have hm : isMatchedOf cfg r = isMatchedWith boyerMooreSearch cfg r := rfl
    rw [searchLoop, searchLoopWith, hm]
    cases isMatchedWith boyerMooreSearch cfg r with
    | none => rfl
    | some v => exact ih _

/-- When every call returns a value, the loop appends the records whose value is
not 0, in input order. -/
theorem searchLoopWith_filter (bm : Str → Str → Int → Option Int) (cfg : Config)
    (keep : Record → Bool) (data : List Record) :
    ∀ acc : List Record,
      (∀ r ∈ data, ∃ v, isMatchedWith bm cfg r = some v ∧ keep r = decide (v ≠ 0)) →
      searchLoopWith bm cfg data acc = some (acc ++ data.filter keep) := by
  induction data with
  | nil => intro acc _; simp [searchLoopWith]
  | cons r rest ih =>
    intro acc h
    obtain ⟨v, hv, hk⟩ := h r (List.mem_cons_self _ _)
    have hrest := fun x hx => h x (List.mem_cons_of_mem _ hx)
    rw [searchLoopWith, hv]
    simp only
    rw [ih _ hrest]
    by_cases hz : v = 0
    · simp [hz, List.filter_cons, hk]
    · simp [hz, List.filter_cons, hk]

/-- When some call has no defined result, neither has the loop. -/
theorem searchLoopWith_none (bm : Str → Str → Int → Option Int) (cfg : Config)
    (data : List Record) :
    ∀ acc : List Record, (∃ r ∈ data, isMatchedWith bm cfg r = none) →
      searchLoopWith bm cfg data acc = none := by
  induction data with
  | nil => intro acc h; obtain ⟨r, hr, _⟩ := h; simp at hr
  | cons r rest ih =>
    intro acc h
    rw [searchLoopWith]
    cases hv : isMatchedWith bm cfg r with
    | none => rfl
    | some v =>
      simp only
      apply ih
      obtain ⟨x, hx, hnone⟩ := h
      rcases List.mem_cons.mp hx with e | e
      · subst e; rw [hv] at hnone; exact absurd hnone (by simp)
      · exact ⟨x, e, hnone⟩

/-- Whatever the calls return, a result of the loop is the records it entered
with followed by a sublist of the input. -/
theorem searchLoopWith_sublist (bm : Str → Str → Int → Option Int) (cfg : Config)
    (data : List Record) :
    ∀ acc out : List Record, searchLoopWith bm cfg data acc = some out →
      ∃ l, l.Sublist data ∧ out = acc ++ l := by
  induction data with
  | nil =>
    intro acc out h
    rw [searchLoopWith] at h
    exact ⟨[], List.Sublist.refl _, by simpa using (Option.some.inj h).symm⟩
  | cons r rest ih =>
    intro acc out h
    rw [searchLoopWith] at h
    cases hv : isMatchedWith bm cfg r with
    | none => rw [hv] at h; simp at h
    | some v =>
      rw [hv] at h
      simp only at h
      obtain ⟨l, hl, hout⟩ := ih _ out h
      by_cases hz : v = 0
      · rw [if_neg (by simpa using hz)] at hout
        exact ⟨l, hl.cons r, hout⟩
      · rw [if_pos hz] at hout
        exact ⟨r :: l, hl.cons₂ r, by simpa using hout⟩

/-- C8: the search loop keeps exactly the input records on which the selected
matcher returns a non-zero value on the configured field (`name` when
`searchField` is 1, `description` otherwise), unchanged and in input order.
With `algorithmType` 1 the matcher is `rabinKarpSearch` in distinct-pattern mode
on the whole pattern list, and the loop always returns that sublist.  Otherwise
the matcher is `boyerMooreSearch` on the first pattern: the loop returns that
sublist when every call has a defined result, has no defined result when some
call has none, and keeps the records with a non-zero value whatever values `bm`
the calls return.  Every result is a sublist of the input, so `originalLine` is
strictly increasing in it whenever it is in the input. -/
theorem searchLoop_subsequence (cfg : Config) (data : List Record) :
    (cfg.algorithmType = 1 →
      searchLoop cfg data [] = some (data.filter (fun r =>
        decide (rabinKarpSearch (if cfg.searchField = 1 then r.name else r.description)
          cfg.patterns false cfg.targetCount ≠ 0)))) ∧
    (∀ (p : Str) (others : List Str), cfg.algorithmType ≠ 1 → cfg.patterns = p :: others →
      ((∀ r ∈ data, boyerMooreSearch (if cfg.searchField = 1 then r.name else r.description)
            p cfg.targetCount ≠ none) →
        searchLoop cfg data [] = some (data.filter (fun r =>
          decide (boyerMooreSearch (if cfg.searchField = 1 then r.name else r.description)
            p cfg.targetCount ≠ some 0)))) ∧
      ((∃ r ∈ data, boyerMooreSearch (if cfg.searchField = 1 then r.name else r.description)
            p cfg.targetCount = none) →
        searchLoop cfg data [] = none) ∧
      ∀ bm : Str → Str → Int → Int,
        searchLoopWith (fun t q k => some (bm t q k)) cfg data [] = some (data.filter (fun r =>
          decide (bm (if cfg.searchField = 1 then r.name else r.description)
            p cfg.targetCount ≠ 0)))) ∧
    (∀ acc, searchLoop cfg data acc = searchLoopWith boyerMooreSearch cfg data acc) ∧
    ∀ out, searchLoop cfg data [] = some out →
      out.Sublist data ∧
      (data.Pairwise (fun a b => a.originalLine < b.originalLine) →
        out.Pairwise (fun a b => a.originalLine < b.originalLine)) := by
  refine ⟨?_, ?_, searchLoop_eq_searchLoopWith cfg data, ?_⟩
  · intro h1
    rw [searchLoop_eq_searchLoopWith]
    have := searchLoopWith_filter boyerMooreSearch cfg (fun r =>
        decide (rabinKarpSearch (if cfg.searchField = 1 then r.name else r.description)
          cfg.patterns false cfg.targetCount ≠ 0)) data [] (by
      intro r _
      exact ⟨_, by simp only [isMatchedWith, h1, if_true, targetText], rfl⟩)
    simpa using this
  · intro p others h2 hp
    refine ⟨?_, ?_, ?_⟩
    · intro hdef
      rw [searchLoop_eq_searchLoopWith]
      have := searchLoopWith_filter boyerMooreSearch cfg (fun r =>
          decide (boyerMooreSearch (if cfg.searchField = 1 then r.name else r.description)
            p cfg.targetCount ≠ some 0)) data [] (by
        intro r hr
        have hne := hdef r hr
        cases hv : boyerMooreSearch (if cfg.searchField = 1 then r.name else r.description)
            p cfg.targetCount with
        | none => exact absurd hv hne
        | some v =>
          refine ⟨v, by simp only [isMatchedWith, h2, if_false, hp, targetText, hv], ?_⟩
          simp [hv])
      simpa using this
    · rintro ⟨r, hr, hnone⟩
      rw [searchLoop_eq_searchLoopWith]
      exact searchLoopWith_none boyerMooreSearch cfg data [] ⟨r, hr, by
        simp only [isMatchedWith, h2, if_false, hp, targetText, hnone]⟩
    · intro bm
      have := searchLoopWith_filter (fun t q k => some (bm t q k)) cfg (fun r =>
          decide (bm (if cfg.searchField = 1 then r.name else r.description)
            p cfg.targetCount ≠ 0)) data [] (by
        intro r _
        exact ⟨_, by simp only [isMatchedWith, h2, if_false, hp, targetText], rfl⟩)
      simpa using this
  · intro out hout
    rw [searchLoop_eq_searchLoopWith] at hout
    obtain ⟨l, hl, rfl⟩ := searchLoopWith_sublist boyerMooreSearch cfg data [] out hout
    exact ⟨by simpa using hl, fun hp => by simpa using hp.sublist hl⟩

/-- Witness of C8: on the three sample records Rabin-Karp on the names keeps
lines 1 and 3, and Boyer-Moore on the descriptions keeps line 2. -/
theorem searchLoop_subsequence_witness :
    sampleConfig.algorithmType = 1 ∧
    searchLoop sampleConfig sampleData [] = some (sampleData.filter (fun r =>
      decide (rabinKarpSearch (if sampleConfig.searchField = 1 then r.name else r.description)
        sampleConfig.patterns false sampleConfig.targetCount ≠ 0))) ∧
    (sampleData.filter (fun r =>
      decide (rabinKarpSearch (if sampleConfig.searchField = 1 then r.name else r.description)
        sampleConfig.patterns false sampleConfig.targetCount ≠ 0))).map
      (fun r => r.originalLine) = [1, 3] ∧
    sampleConfigBM.algorithmType ≠ 1 ∧ sampleConfigBM.patterns = [ascii "ab"] ∧
    (∀ r ∈ sampleData, boyerMooreSearch
      (if sampleConfigBM.searchField = 1 then r.name else r.description)
      (ascii "ab") sampleConfigBM.targetCount ≠ none) ∧
    searchLoop sampleConfigBM sampleData [] = some (sampleData.filter (fun r =>
      decide (boyerMooreSearch (if sampleConfigBM.searchField = 1 then r.name else r.description)
        (ascii "ab") sampleConfigBM.targetCount ≠ some 0))) ∧
    (sampleData.filter (fun r =>
      decide (boyerMooreSearch (if sampleConfigBM.searchField = 1 then r.name else r.description)
        (ascii "ab") sampleConfigBM.targetCount ≠ some 0))).map
      (fun r => r.originalLine) = [2] :=
  ⟨rfl, (searchLoop_subsequence sampleConfig sampleData).1 rfl, by decide,
   by decide, rfl, by decide,
   ((searchLoop_subsequence sampleConfigBM sampleData).2.1 (ascii "ab") [] (by decide) rfl).1
     (by decide),
   by decide⟩

/-! ## Rabin-Karp: the base power and the occurrence mode -/

/-- The closed form of the `basePower` loop started below the modulus. -/
theorem basePowerLoop_eq (n : Nat) : ∀ bp : Nat, bp < mod →
    basePowerLoop n bp = (if n = 0 then bp else (bp * base ^ n) % mod) := by
  induction n with
  | zero => intro bp _; simp [basePowerLoop]
  | succ n ih =>
    intro bp hbp
    have hlt : bp * base < wordSize := by
      have : bp < 1000000007 := hbp
      simp only [base, wordSize]; omega
    have hstep : u64mul bp base % mod = (bp * base) % mod := by
      unfold u64mul; rw [Nat.mod_eq_of_lt hlt]
    have hm : (bp * base) % mod < mod := Nat.mod_lt _ (by decide)
    simp only [basePowerLoop, hstep]
    rw [ih _ hm]
    by_cases hn : n = 0
    · subst hn; simp
    · simp only [hn, if_false, Nat.succ_ne_zero]
      rw [pow_succ', ← Nat.mul_assoc, Nat.mod_mul_mod]

/-- One more iteration of the `basePower` loop is one more multiplication. -/
theorem basePowerLoop_succ (n : Nat) : ∀ bp : Nat,
    basePowerLoop (n + 1) bp = u64mul (basePowerLoop n bp) base % mod := by
  induction n with
  | zero => intro bp; rfl
  | succ n ih => intro bp; rw [basePowerLoop, ih]; rfl

theorem basePowerLoop_lt (n : Nat) : basePowerLoop n 1 < mod := by
  rw [basePowerLoop_eq n 1 (by decide)]
  split
  · decide
  · exact Nat.mod_lt _ (by decide)

/-- C19: for every window length the value of `basePower` is
`base ^ (maxPatternLen - 1) mod M`; after any number `k` of iterations the next
iteration multiplies the current value by `base`, and that product is below
`2 ^ 64`, so the 64-bit multiplication is exact. -/
theorem basePowerOf_eq_pow (maxPatternLen : Nat) :
    basePowerOf maxPatternLen = base ^ (maxPatternLen - 1) % mod ∧
    ∀ k, basePowerLoop (k + 1) 1 = u64mul (basePowerLoop k 1) base % mod ∧
      basePowerLoop k 1 * base < wordSize ∧
      u64mul (basePowerLoop k 1) base = basePowerLoop k 1 * base := by
  constructor
  · unfold basePowerOf
    rw [basePowerLoop_eq _ 1 (by decide)]
    split
    · next h => rw [h]; decide
    · simp
  · intro k
    have hlt : basePowerLoop k 1 * base < wordSize := by
      have h := basePowerLoop_lt k
      have : basePowerLoop k 1 < 1000000007 := h
      simp only [base, wordSize]; omega
    exact ⟨basePowerLoop_succ k 1, hlt, Nat.mod_eq_of_lt hlt⟩


/-- C14: in single-pattern occurrence mode `rabinKarpSearch` returns 0 for every
text and every target count when the pattern list does not hold exactly one
pattern. -/
theorem rabinKarpSearch_occurrence_mode (text : Str) (patterns : List Str) (targetCount : Int)
    (h : patterns.length ≠ 1) : rabinKarpSearch text patterns true targetCount = 0 := by
  unfold rabinKarpSearch
  match patterns, h with
  | [], _ => simp
  | [p], h => simp at h
  | p :: q :: rest, _ => simp

/-! ## Rabin-Karp: the counters of the sliding loop -/

/-- The loop over one bucket: counters only grow, a string gets a non-zero counter
only by a verified match, every verified match is counted, and the count of
distinct matched strings stays exact. -/
theorem verifyBucket_spec (text : Str) (L i : Nat) : ∀ (b : List Str) (occ : Str → Nat) (cnt : Nat),
    (∀ p, occ p ≤ (verifyBucket text L i b (occ, cnt)).1 p) ∧
    (∀ p, (verifyBucket text L i b (occ, cnt)).1 p ≠ 0 →
      occ p ≠ 0 ∨ (p ∈ b ∧ p.length = L ∧ isMatchAt text p i = true)) ∧
    (∀ p ∈ b, p.length = L → isMatchAt text p i = true →
      (verifyBucket text L i b (occ, cnt)).1 p ≠ 0) ∧
    (CountInv occ cnt →
      CountInv (verifyBucket text L i b (occ, cnt)).1 (verifyBucket text L i b (occ, cnt)).2) := by
  intro b
  induction b with
  | nil => intro occ cnt; simp [verifyBucket]
  | cons p rest ih =>
    intro occ cnt
    by_cases hlen : p.length = L
    · by_cases hm : isMatchAt text p i = true
      · have hv : verifyBucket text L i (p :: rest) (occ, cnt) =
            verifyBucket text L i rest
              (fun q => if q = p then occ q + 1 else occ q, if occ p = 0 then cnt + 1 else cnt) := by
          simp [verifyBucket, hlen, hm]
        rw [hv]
        obtain ⟨h1, h2, h3, h4⟩ := ih (fun q => if q = p then occ q + 1 else occ q)
          (if occ p = 0 then cnt + 1 else cnt)
        refine ⟨?_, ?_, ?_, ?_⟩
        · intro q
          refine le_trans ?_ (h1 q)
          by_cases hq : q = p <;> simp [hq]
        · intro q hq
          rcases h2 q hq with h | ⟨hr, hl, hmq⟩
          · by_cases hqp : q = p
            · subst hqp; exact Or.inr ⟨List.mem_cons_self _ _, hlen, hm⟩
            · simp only [hqp, if_false] at h; exact Or.inl h
          · exact Or.inr ⟨List.mem_cons_of_mem _ hr, hl, hmq⟩
        · intro q hq hl hmq
          rcases List.mem_cons.mp hq with h | h
          · subst h
            have := h1 q
            simp only [if_true] at this
            omega
          · exact h3 q h hl hmq
        · intro hinv
          apply h4
          obtain ⟨S, hc, hS⟩ := hinv
          refine ⟨insert p S, ?_, ?_⟩
          · by_cases h0 : occ p = 0
            · have hp : p ∉ S := fun hp => (hS p).mp hp h0
              rw [Finset.card_insert_of_not_mem hp, hc]; simp [h0]
            · have hp : p ∈ S := (hS p).mpr h0
              rw [Finset.insert_eq_of_mem hp, hc]; simp [h0]
          · intro q
            by_cases hqp : q = p
            · subst hqp; simp
            · simp [hqp, hS q]
      · have hv : verifyBucket text L i (p :: rest) (occ, cnt) =
            verifyBucket text L i rest (occ, cnt) := by
          simp [verifyBucket, hlen, hm]
        rw [hv]
        obtain ⟨h1, h2, h3, h4⟩ := ih occ cnt
        refine ⟨h1, ?_, ?_, h4⟩
        · intro q hq
          rcases h2 q hq with h | ⟨hr, hl, hmq⟩
          · exact Or.inl h
          · exact Or.inr ⟨List.mem_cons_of_mem _ hr, hl, hmq⟩
        · intro q hq hl hmq
          rcases List.mem_cons.mp hq with h | h
          · subst h; exact absurd hmq hm
          · exact h3 q h hl hmq
    · have hv : verifyBucket text L i (p :: rest) (occ, cnt) =
          verifyBucket text L i rest (occ, cnt) := by
        simp [verifyBucket, hlen]
      rw [hv]
      obtain ⟨h1, h2, h3, h4⟩ := ih occ cnt
      refine ⟨h1, ?_, ?_, h4⟩
      · intro q hq
        rcases h2 q hq with h | ⟨hr, hl, hmq⟩
        · exact Or.inl h
        · exact Or.inr ⟨List.mem_cons_of_mem _ hr, hl, hmq⟩
      · intro q hq hl hmq
        rcases List.mem_cons.mp hq with h | h
        · subst h; exact absurd hl hlen
        · exact h3 q h hl hmq

/-- The sliding loop, from any state and with any hash values: the same three
facts over the offsets it visits. -/
theorem rkLoop_spec (text : Str) (patterns : List Str) (L bp : Nat) : ∀ (n i : Nat) (st : RKState),
    (∀ p, st.patternOccurrences p ≤ (rkLoop text patterns L bp n i st).patternOccurrences p) ∧
    (∀ p, (rkLoop text patterns L bp n i st).patternOccurrences p ≠ 0 →
      st.patternOccurrences p ≠ 0 ∨
        (p ∈ patterns ∧ p.length = L ∧ ∃ j, i ≤ j ∧ j < i + n ∧ isMatchAt text p j = true)) ∧
    (CountInv st.patternOccurrences st.matchedPatternCount →
      CountInv (rkLoop text patterns L bp n i st).patternOccurrences
        (rkLoop text patterns L bp n i st).matchedPatternCount) := by
  intro n
  induction n with
  | zero => intro i st; exact ⟨fun _ => le_refl _, fun p h => Or.inl h, id⟩
  | succ n ih =>
    intro i st
    obtain ⟨h1, h2, h3⟩ := ih (i + 1) (rkStep text patterns L bp i st)
    obtain ⟨v1, v2, _, v4⟩ := verifyBucket_spec text L i (bucket patterns st.windowHash)
      st.patternOccurrences st.matchedPatternCount
    simp only [rkLoop]
    refine ⟨fun p => le_trans (v1 p) (h1 p), ?_, fun hinv => h3 (v4 hinv)⟩
    intro p hp
    rcases h2 p hp with h | ⟨hm, hl, j, hj1, hj2, hj3⟩
    · rcases v2 p h with h' | ⟨hb, hl, hmq⟩
      · exact Or.inl h'
      · exact Or.inr ⟨(List.mem_filter.mp hb).1, hl, i, le_refl _, by omega, hmq⟩
    · exact Or.inr ⟨hm, hl, j, by omega, by omega, hj3⟩

theorem byteAt_eq_getElem (s : Str) (k : Nat) (h : k < s.length) : byteAt s k = s[k] := by
  simp [byteAt, List.getD_eq_getElem?_getD, List.getElem?_eq_getElem h]

theorem isMatchAt_iff (text p : Str) (i : Nat) (h : i + p.length ≤ text.length) :
    isMatchAt text p i = true ↔ occursAt text p i := by
  unfold isMatchAt occursAt
  rw [List.all_eq_true]
  constructor
  · intro hall
    apply List.ext_getElem
    · simp; omega
    · intro j h1 h2
      have hj := hall j (List.mem_range.mpr h2)
      rw [byteAt_eq_getElem text (i + j) (by omega), byteAt_eq_getElem p j h2] at hj
      simpa using hj
  · intro heq j hj
    have hj' : j < p.length := List.mem_range.mp hj
    rw [byteAt_eq_getElem text (i + j) (by omega), byteAt_eq_getElem p j hj']
    have h1 : j < ((text.drop i).take p.length).length := by simp; omega
    have : ((text.drop i).take p.length)[j] = p[j] := by simp only [heq]
    simpa using this

theorem foldl_max_spec (l : List Str) : ∀ a : Nat,
    a ≤ l.foldl (fun m p => max m p.length) a ∧
    (∀ p ∈ l, p.length ≤ l.foldl (fun m p => max m p.length) a) ∧
    (l.foldl (fun m p => max m p.length) a = a ∨
      ∃ p ∈ l, p.length = l.foldl (fun m p => max m p.length) a) := by
  induction l with
  | nil => intro a; simp
  | cons q rest ih =>
    intro a
    obtain ⟨h1, h2, h3⟩ := ih (max a q.length)
    simp only [List.foldl_cons]
    refine ⟨le_trans (le_max_left _ _) h1, ?_, ?_⟩
    · intro p hp
      rcases List.mem_cons.mp hp with h | h
      · subst h; exact le_trans (le_max_right _ _) h1
      · exact h2 p h
    · rcases h3 with h | ⟨p, hp, hl⟩
      · rcases le_total a q.length with hle | hle
        · right; exact ⟨q, List.mem_cons_self _ _, by rw [h, max_eq_right hle]⟩
        · left; rw [h, max_eq_left hle]
      · right; exact ⟨p, List.mem_cons_of_mem _ hp, hl⟩

theorem length_le_maxPatternLenOf (patterns : List Str) (p : Str) (hp : p ∈ patterns) :
    p.length ≤ maxPatternLenOf patterns :=
  (foldl_max_spec patterns 0).2.1 p hp

theorem exists_maximal_pattern (patterns : List Str) (h : patterns ≠ []) :
    ∃ p ∈ patterns, p.length = maxPatternLenOf patterns := by
  rcases (foldl_max_spec patterns 0).2.2 with h0 | h0
  · obtain ⟨q, rest, rfl⟩ := List.exists_cons_of_ne_nil h
    refine ⟨q, List.mem_cons_self _ _, ?_⟩
    have := length_le_maxPatternLenOf (q :: rest) q (List.mem_cons_self _ _)
    unfold maxPatternLenOf at this ⊢
    omega
  · exact h0

theorem mem_maximalPatterns (patterns : List Str) (p : Str) :
    p ∈ maximalPatterns patterns ↔ p ∈ patterns ∧ p.length = maxPatternLenOf patterns := by
  unfold maximalPatterns
  rw [List.mem_filter]
  constructor
  · rintro ⟨hp, hl⟩
    have := length_le_maxPatternLenOf patterns p hp
    simp at hl
    exact ⟨hp, by omega⟩
  · rintro ⟨hp, hl⟩
    exact ⟨hp, by simp [hl]⟩

theorem maxPatternLenOf_maximalPatterns (patterns : List Str) :
    maxPatternLenOf (maximalPatterns patterns) = maxPatternLenOf patterns := by
  by_cases h : patterns = []
  · subst h; rfl
  · obtain ⟨p, hp, hl⟩ := exists_maximal_pattern patterns h
    have hmem : p ∈ maximalPatterns patterns := (mem_maximalPatterns patterns p).mpr ⟨hp, hl⟩
    apply le_antisymm
    · obtain ⟨q, hq, hql⟩ := exists_maximal_pattern (maximalPatterns patterns)
        (List.ne_nil_of_mem hmem)
      rw [← hql]
      exact length_le_maxPatternLenOf patterns q ((mem_maximalPatterns patterns q).mp hq).1
    · rw [← hl]; exact length_le_maxPatternLenOf _ p hmem

theorem firstWindowHash_eq (text : Str) (L : Nat) (h : L ≤ text.length) :
    firstWindowHash text L = patternHash (text.take L) := by
  unfold firstWindowHash patternHash
  have : text.take L = (List.range L).map (byteAt text) := by
    apply List.ext_getElem
    · simp; omega
    · intro j h1 h2
      simp at h1 h2
      simp [byteAt_eq_getElem text j (by omega)]
  rw [this, List.foldl_map]

theorem verifyBucket_filter (text : Str) (L i : Nat) (f : Str → Bool)
    (hf : ∀ p : Str, p.length = L → f p = true) : ∀ (b : List Str) (st : (Str → Nat) × Nat),
    verifyBucket text L i (b.filter f) st = verifyBucket text L i b st := by
  intro b
  induction b with
  | nil => intro st; rfl
  | cons p rest ih =>
    intro st
    obtain ⟨occ, cnt⟩ := st
    by_cases hp : f p = true
    · rw [List.filter_cons_of_pos hp]
      by_cases hlen : p.length = L
      · by_cases hm : isMatchAt text p i = true
        · simp only [verifyBucket, hlen, hm, ne_eq, not_true_eq_false, if_false, if_true]
          exact ih _
        · simp only [verifyBucket, hlen, hm, ne_eq, not_true_eq_false, if_false]
          exact ih _
      · simp only [verifyBucket, hlen, ne_eq, not_false_eq_true, if_true]
        exact ih _
    · rw [List.filter_cons_of_neg hp]
      have hlen : p.length ≠ L := fun h => hp (hf p h)
      simp only [verifyBucket, hlen, ne_eq, not_false_eq_true, if_true]
      exact ih _

theorem bucket_filter (patterns : List Str) (f : Str → Bool) (h : Nat) :
    bucket (patterns.filter f) h = (bucket patterns h).filter f := by
  unfold bucket
  rw [List.filter_filter, List.filter_filter]
  apply List.filter_congr
  intro x _
  exact Bool.and_comm _ _

theorem rkLoop_filter (text : Str) (patterns : List Str) (L bp : Nat) (f : Str → Bool)
    (hf : ∀ p : Str, p.length = L → f p = true) : ∀ (n i : Nat) (st : RKState),
    rkLoop text (patterns.filter f) L bp n i st = rkLoop text patterns L bp n i st := by
  intro n
  induction n with
  | zero => intro i st; rfl
  | succ n ih =>
    intro i st
    simp only [rkLoop]
    rw [ih]
    congr 1
    unfold rkStep
    rw [bucket_filter, verifyBucket_filter text L i f hf]

theorem rkFinal_maximalPatterns (text : Str) (patterns : List Str) :
    rkFinal text (maximalPatterns patterns) = rkFinal text patterns := by
  unfold rkFinal rkAfter
  rw [maxPatternLenOf_maximalPatterns]
  unfold maximalPatterns
  exact rkLoop_filter text patterns _ _ _ (fun p hp => by simp [hp]) _ _ _

/-- The counters at the end of the sliding loop. -/
theorem rkFinal_spec (text : Str) (patterns : List Str)
    (hlen : maxPatternLenOf patterns ≤ text.length) :
    ∃ S : Finset Str, S.card = (rkFinal text patterns).matchedPatternCount ∧
      (∀ p, p ∈ S ↔ (rkFinal text patterns).patternOccurrences p ≠ 0) ∧
      ∀ p ∈ S, p ∈ patterns ∧ p.length = maxPatternLenOf patterns ∧
        ∃ i, i + p.length ≤ text.length ∧ occursAt text p i := by
  obtain ⟨_, h2, h3⟩ := rkLoop_spec text patterns (maxPatternLenOf patterns)
    (basePowerOf (maxPatternLenOf patterns)) (text.length - maxPatternLenOf patterns + 1) 0
    (rkInit text (maxPatternLenOf patterns))
  obtain ⟨S, hc, hS⟩ := h3 ⟨∅, rfl, fun p => by simp [rkInit]⟩
  refine ⟨S, hc, hS, ?_⟩
  intro p hp
  rcases h2 p ((hS p).mp hp) with h | ⟨hm, hl, j, _, hj, hmatch⟩
  · exact absurd rfl h
  · have hr : j + p.length ≤ text.length := by omega
    exact ⟨hm, hl, j, hr, (isMatchAt_iff text p j hr).mp hmatch⟩

/-- C13: in distinct-pattern mode the result is unchanged when every pattern
shorter than the longest one is removed from the list, and it is 0 whenever the
target exceeds the number of distinct patterns of maximal length. -/
theorem rabinKarpSearch_maximalPatterns (text : Str) (patterns : List Str) (targetCount : Int) :
    rabinKarpSearch text patterns false targetCount
      = rabinKarpSearch text (maximalPatterns patterns) false targetCount ∧
    (((maximalPatterns patterns).dedup.length : Int) < targetCount →
      rabinKarpSearch text patterns false targetCount = 0) := by
  constructor
  · unfold rabinKarpSearch
    rw [maxPatternLenOf_maximalPatterns, rkFinal_maximalPatterns]
    simp only [Bool.false_eq_true, if_false]
    have he : (maximalPatterns patterns).isEmpty = patterns.isEmpty := by
      by_cases h : patterns = []
      · subst h; rfl
      · obtain ⟨p, hp, hl⟩ := exists_maximal_pattern patterns h
        have hmem : p ∈ maximalPatterns patterns := (mem_maximalPatterns patterns p).mpr ⟨hp, hl⟩
        have h1 : (maximalPatterns patterns).isEmpty = false := by
          rw [Bool.eq_false_iff]; intro hh
          exact List.ne_nil_of_mem hmem (List.isEmpty_iff.mp hh)
        have h2 : patterns.isEmpty = false := by
          rw [Bool.eq_false_iff]; intro hh
          exact h (List.isEmpty_iff.mp hh)
        rw [h1, h2]
    rw [he]
  · intro hk
    unfold rabinKarpSearch
    split
    · rfl
    · split
      · rfl
      · next hlen =>
        have hlen' : maxPatternLenOf patterns ≤ text.length := by omega
        obtain ⟨S, hc, _, hS⟩ := rkFinal_spec text patterns hlen'
        have hsub : S ⊆ (maximalPatterns patterns).toFinset := by
          intro p hp
          rw [List.mem_toFinset, mem_maximalPatterns]
          exact ⟨(hS p hp).1, (hS p hp).2.1⟩
        have hle := Finset.card_le_card hsub
        rw [List.card_toFinset, hc] at hle
        simp only [Bool.false_eq_true, if_false]
        rw [if_neg]
        omega

/-- C15: when the distinct-pattern search returns 1 for a target `k ≥ 1`, there
is a set of at least `k` distinct strings of the pattern list, each of maximal
length and each standing in the text at some offset.  The proof uses no property
of the hash values: every counted match went through the byte comparison. -/
theorem rabinKarpSearch_sound (text : Str) (patterns : List Str) (targetCount : Int)
    (_hk : 1 ≤ targetCount) (h : rabinKarpSearch text patterns false targetCount = 1) :
    ∃ S : Finset Str, targetCount ≤ (S.card : Int) ∧
      ∀ p ∈ S, p ∈ patterns ∧ p.length = maxPatternLenOf patterns ∧
        ∃ i, i + p.length ≤ text.length ∧ occursAt text p i := by
  unfold rabinKarpSearch at h
  split at h
  · exact absurd h (by decide)
  · split at h
    · exact absurd h (by decide)
    · next hlen =>
      have hlen' : maxPatternLenOf patterns ≤ text.length := by omega
      obtain ⟨S, hc, _, hS⟩ := rkFinal_spec text patterns hlen'
      simp only [Bool.false_eq_true, if_false] at h
      split at h
      · next hge => exact ⟨S, by rw [hc]; exact hge, hS⟩
      · exact absurd h (by decide)

/-- C18: when a non-empty pattern of maximal length is a prefix of the text, the
distinct-pattern search with target 1 returns 1. -/
theorem rabinKarpSearch_prefix (text : Str) (patterns : List Str) (P : Str)
    (hP : P ∈ patterns) (hne : P ≠ []) (hmax : P.length = maxPatternLenOf patterns)
    (hpre : P <+: text) : rabinKarpSearch text patterns false 1 = 1 := by
  have hPlen : 0 < P.length := List.length_pos.mpr hne
  have hle : P.length ≤ text.length := hpre.length_le
  have htake : text.take P.length = P := (List.prefix_iff_eq_take.mp hpre).symm
  have hocc : occursAt text P 0 := by unfold occursAt; simpa using htake
  have hmatch : isMatchAt text P 0 = true := (isMatchAt_iff text P 0 (by omega)).mpr hocc
  have hhash : patternHash P = firstWindowHash text (maxPatternLenOf patterns) := by
    rw [← hmax, firstWindowHash_eq text P.length hle, htake]
  have hbucket : P ∈ bucket patterns (rkInit text (maxPatternLenOf patterns)).windowHash := by
    unfold bucket rkInit
    rw [List.mem_filter]
    exact ⟨hP, by simpa using hhash⟩
  -- the first iteration records `P`
  obtain ⟨_, _, v3, _⟩ := verifyBucket_spec text (maxPatternLenOf patterns) 0
    (bucket patterns (rkInit text (maxPatternLenOf patterns)).windowHash)
    (rkInit text (maxPatternLenOf patterns)).patternOccurrences
    (rkInit text (maxPatternLenOf patterns)).matchedPatternCount
  have hfirst := v3 P hbucket hmax hmatch
  -- the later iterations keep it
  obtain ⟨m1, _, _⟩ := rkLoop_spec text patterns (maxPatternLenOf patterns)
    (basePowerOf (maxPatternLenOf patterns)) (text.length - maxPatternLenOf patterns) (0 + 1)
    (rkStep text patterns (maxPatternLenOf patterns) (basePowerOf (maxPatternLenOf patterns)) 0
      (rkInit text (maxPatternLenOf patterns)))
  have hfinal : (rkFinal text patterns).patternOccurrences P ≠ 0 := by
    unfold rkFinal rkAfter
    simp only [rkLoop]
    exact Nat.ne_of_gt (lt_of_lt_of_le (Nat.pos_of_ne_zero hfirst) (m1 P))
  obtain ⟨S, hc, hS, _⟩ := rkFinal_spec text patterns (by omega)
  have hcard : 0 < S.card := Finset.card_pos.mpr ⟨P, (hS P).mpr hfinal⟩
  unfold rabinKarpSearch
  have h1 : patterns.isEmpty = false := by
    rw [Bool.eq_false_iff]; intro hh
    exact List.ne_nil_of_mem hP (List.isEmpty_iff.mp hh)
  have h2 : text.isEmpty = false := by
    rw [Bool.eq_false_iff]; intro hh
    have ht : text = [] := List.isEmpty_iff.mp hh
    rw [ht] at hle
    have : P.length = 0 := Nat.le_zero.mp hle
    omega
  rw [h1, h2]
  simp only [Bool.or_self, Bool.false_eq_true, if_false]
  have hgt : ¬ maxPatternLenOf patterns > text.length := by omega
  rw [if_neg hgt, if_pos]
  rw [← hc]
  omega

/-- Witness of C13: the patterns "ab", "c", "ab" hold one distinct pattern of
maximal length, so target 2 gives 0. -/
theorem rabinKarpSearch_maximalPatterns_witness :
    (((maximalPatterns [ascii "ab", ascii "c", ascii "ab"]).dedup.length : Int) < 2) ∧
    rabinKarpSearch (ascii "abcab") [ascii "ab", ascii "c", ascii "ab"] false 2 = 0 :=
  ⟨by decide,
   (rabinKarpSearch_maximalPatterns (ascii "abcab") [ascii "ab", ascii "c", ascii "ab"] 2).2
     (by decide)⟩

/-- Witness of C14: two patterns in occurrence mode. -/
theorem rabinKarpSearch_occurrence_mode_witness :
    [ascii "a", ascii "b"].length ≠ 1 ∧
    rabinKarpSearch (ascii "ab") [ascii "a", ascii "b"] true 1 = 0 :=
  ⟨by decide, rabinKarpSearch_occurrence_mode (ascii "ab") [ascii "a", ascii "b"] 1 (by decide)⟩

/-- Witness of C15: text "abx", patterns "ab", "ab", "c", target 1. -/
theorem rabinKarpSearch_sound_witness :
    rabinKarpSearch (ascii "abx") [ascii "ab", ascii "ab", ascii "c"] false 1 = 1 ∧
    ∃ S : Finset Str, (1 : Int) ≤ (S.card : Int) ∧
      ∀ p ∈ S, p ∈ [ascii "ab", ascii "ab", ascii "c"] ∧
        p.length = maxPatternLenOf [ascii "ab", ascii "ab", ascii "c"] ∧
        ∃ i, i + p.length ≤ (ascii "abx").length ∧ occursAt (ascii "abx") p i :=
  ⟨by decide,
   rabinKarpSearch_sound (ascii "abx") [ascii "ab", ascii "ab", ascii "c"] 1 (by decide) (by decide)⟩

/-- Witness of C18: the pattern "ab" is a prefix of "abx". -/
theorem rabinKarpSearch_prefix_witness :
    ascii "ab" ∈ [ascii "c", ascii "ab"] ∧ ascii "ab" <+: ascii "abx" ∧
    rabinKarpSearch (ascii "abx") [ascii "c", ascii "ab"] false 1 = 1 :=
  ⟨by decide, by decide,
   rabinKarpSearch_prefix (ascii "abx") [ascii "c", ascii "ab"] (ascii "ab")
     (by decide) (by decide) (by decide) (by decide)⟩

/-! ## Boyer-Moore: the scan never counts an occurrence twice -/

theorem bmLoop_succ_eq (text pattern : Str) (bc gs : List Int) (fuel : Nat) (i cnt : Int) :
    bmLoop text pattern bc gs (fuel + 1) i cnt =
      if i ≤ (text.length : Int) - (pattern.length : Int) then
        match bmStep text pattern bc gs i with
        | none => none
        | some (s, matched) => bmLoop text pattern bc gs fuel (i + s) (if matched then cnt + 1 else cnt)
      else some cnt := by
  rw [bmLoop]
  unfold bmStep
  split
  · cases compareWhile text pattern i pattern.length with
    | none => rfl
    | some j =>
      simp only
      split
      · split
        · cases rdI gs 0 <;> simp
        · simp
      · cases rdB text (i + j) with
        | none => rfl
        | some c =>
          simp only
          cases rdI bc (c.val : Int) <;> cases rdI gs j <;> simp
  · rfl

theorem exitsIn_unique (text pattern : Str) (bc gs : List Int) : ∀ (n n' : Nat) (i : Int),
    exitsIn text pattern bc gs n i → exitsIn text pattern bc gs n' i → n = n' := by
  intro n
  induction n with
  | zero =>
    intro n' i h h'
    cases n' with
    | zero => rfl
    | succ k => exact absurd h'.1 h
  | succ n ih =>
    intro n' i h h'
    cases n' with
    | zero => exact absurd h.1 h'
    | succ k =>
      obtain ⟨_, s, b, hs, hr⟩ := h
      obtain ⟨_, s', b', hs', hr'⟩ := h'
      rw [hs] at hs'
      obtain ⟨rfl, rfl⟩ := Prod.mk.inj (Option.some.inj hs')
      rw [ih k (i + s) hr hr']

theorem bmLoop_exitsIn (text pattern : Str) (bc gs : List Int) : ∀ (fuel : Nat) (i cnt c : Int),
    bmLoop text pattern bc gs fuel i cnt = some c →
    ∃ n, n ≤ fuel ∧ exitsIn text pattern bc gs n i := by
  intro fuel
  induction fuel with
  | zero =>
    intro i cnt c h
    rw [bmLoop] at h
    split at h
    · exact absurd h (by simp)
    · next hi => exact ⟨0, le_refl _, hi⟩
  | succ fuel ih =>
    intro i cnt c h
    rw [bmLoop_succ_eq] at h
    split at h
    · next hi =>
      cases hstep : bmStep text pattern bc gs i with
      | none => rw [hstep] at h; exact absurd h (by simp)
      | some r =>
        obtain ⟨s, b⟩ := r
        rw [hstep] at h
        obtain ⟨n, hn, hex⟩ := ih _ _ _ h
        exact ⟨n + 1, by omega, hi, s, b, hstep, hex⟩
    · next hi => exact ⟨0, Nat.zero_le _, hi⟩

theorem rdB_some (s : Str) (k : Int) (a : Byte) (h : rdB s k = some a) :
    0 ≤ k ∧ s[k.toNat]? = some a := by
  unfold rdB at h
  split at h
  · next hk => exact ⟨hk, h⟩
  · exact absurd h (by simp)

theorem compareWhile_match (text pattern : Str) (i : Int) : ∀ (n : Nat) (j : Int),
    compareWhile text pattern i n = some j → j < 0 →
    ∀ t : Nat, t < n → ∃ a, rdB text (i + (t : Int)) = some a ∧ rdB pattern (t : Int) = some a := by
  intro n
  induction n with
  | zero => intro j _ _ t ht; omega
  | succ n ih =>
    intro j h hj t ht
    rw [compareWhile] at h
    cases h1 : rdB text (i + (n : Int)) with
    | none => rw [h1] at h; simp at h
    | some a =>
      cases h2 : rdB pattern (n : Int) with
      | none => rw [h1, h2] at h; simp at h
      | some b =>
        rw [h1, h2] at h
        simp only at h
        split at h
        · next hab =>
          by_cases htn : t = n
          · subst htn; exact ⟨a, h1, by rw [h2, hab]⟩
          · exact ih j h hj t (by omega)
        · have : (n : Int) = j := Option.some.inj h
          omega

theorem bmStep_matched (text pattern : Str) (bc gs : List Int) (i s : Int)
    (hne : pattern ≠ []) (h : bmStep text pattern bc gs i = some (s, true)) :
    0 ≤ i ∧ i.toNat + pattern.length ≤ text.length ∧ occursAt text pattern i.toNat := by
  have hpos : 0 < pattern.length := List.length_pos.mpr hne
  unfold bmStep at h
  cases hc : compareWhile text pattern i pattern.length with
  | none => rw [hc] at h; simp at h
  | some j =>
    rw [hc] at h
    simp only at h
    by_cases hj : j < 0
    · have hall := compareWhile_match text pattern i pattern.length j hc hj
      obtain ⟨a0, ha0, _⟩ := hall 0 hpos
      have hi : 0 ≤ i := by simpa using (rdB_some _ _ _ ha0).1
      have hread : ∀ t : Nat, t < pattern.length → text[i.toNat + t]? = pattern[t]? := by
        intro t ht
        obtain ⟨a, h1, h2⟩ := hall t ht
        have e1 := (rdB_some _ _ _ h1).2
        have e2 := (rdB_some _ _ _ h2).2
        have : (i + (t : Int)).toNat = i.toNat + t := by omega
        rw [this] at e1
        simp only [Int.toNat_ofNat] at e2
        rw [e1, e2]
      have hlast : i.toNat + pattern.length ≤ text.length := by
        have h1 := hread (pattern.length - 1) (by omega)
        have h2 : pattern[pattern.length - 1]? ≠ none := by
          rw [ne_eq, List.getElem?_eq_none_iff]; omega
        rw [← h1, ne_eq, List.getElem?_eq_none_iff] at h2
        omega
      refine ⟨hi, hlast, ?_⟩
      unfold occursAt
      apply List.ext_getElem?
      intro t
      by_cases ht : t < pattern.length
      · rw [List.getElem?_take_of_lt ht, List.getElem?_drop, hread t ht]
      · rw [List.getElem?_eq_none_iff.mpr (by simp; omega),
          List.getElem?_eq_none_iff.mpr (by omega)]
    · rw [if_neg hj] at h
      cases h1 : rdB text (i + j) with
      | none => rw [h1] at h; simp at h
      | some c =>
        rw [h1] at h
        simp only at h
        cases h2 : rdI bc (c.val : Int) <;> cases h3 : rdI gs j <;> rw [h2, h3] at h <;> simp at h

theorem exitsIn_count (text pattern : Str) (bc gs : List Int) (hne : pattern ≠ []) :
    ∀ (n : Nat) (i : Int), exitsIn text pattern bc gs n i →
    ∃ V : Finset Nat,
      (∀ q ∈ V, q + pattern.length ≤ text.length ∧ occursAt text pattern q ∧
        ∃ n', n' ≤ n ∧ exitsIn text pattern bc gs n' (q : Int)) ∧
      ∀ (fuel : Nat) (cnt c : Int), bmLoop text pattern bc gs fuel i cnt = some c →
        c = cnt + (V.card : Int) := by
  intro n
  induction n with
  | zero =>
    intro i hi
    refine ⟨∅, by simp, ?_⟩
    intro fuel cnt c h
    have hi' : ¬ i ≤ (text.length : Int) - (pattern.length : Int) := hi
    cases fuel with
    | zero => rw [bmLoop, if_neg hi'] at h; simpa using (Option.some.inj h).symm
    | succ f => rw [bmLoop_succ_eq, if_neg hi'] at h; simpa using (Option.some.inj h).symm
  | succ n ih =>
    intro i hex
    obtain ⟨hi, s, b, hs, hr⟩ := hex
    obtain ⟨V', hV', hcount'⟩ := ih (i + s) hr
    have hstepcount : ∀ (fuel : Nat) (cnt c : Int), bmLoop text pattern bc gs fuel i cnt = some c →
        c = (if b then cnt + 1 else cnt) + (V'.card : Int) := by
      intro fuel cnt c h
      cases fuel with
      | zero => rw [bmLoop, if_pos hi] at h; simp at h
      | succ f =>
        rw [bmLoop_succ_eq, if_pos hi, hs] at h
        exact hcount' f _ c h
    cases b with
    | false =>
      refine ⟨V', ?_, ?_⟩
      · intro q hq
        obtain ⟨h1, h2, n', hn', h3⟩ := hV' q hq
        exact ⟨h1, h2, n', by omega, h3⟩
      · intro fuel cnt c h
        simpa using hstepcount fuel cnt c h
    | true =>
      obtain ⟨hi0, hlen, hocc⟩ := bmStep_matched text pattern bc gs i s hne hs
      have hcast : ((i.toNat : Nat) : Int) = i := Int.toNat_of_nonneg hi0
      have hnot : i.toNat ∉ V' := by
        intro hmem
        obtain ⟨_, _, n', hn', h3⟩ := hV' _ hmem
        rw [hcast] at h3
        have := exitsIn_unique text pattern bc gs n' (n + 1) i h3 ⟨hi, s, true, hs, hr⟩
        omega
      refine ⟨insert i.toNat V', ?_, ?_⟩
      · intro q hq
        rcases Finset.mem_insert.mp hq with h | h
        · subst h
          exact ⟨hlen, hocc, n + 1, le_refl _, by rw [hcast]; exact ⟨hi, s, true, hs, hr⟩⟩
        · obtain ⟨h1, h2, n', hn', h3⟩ := hV' q h
          exact ⟨h1, h2, n', by omega, h3⟩
      · intro fuel cnt c h
        have := hstepcount fuel cnt c h
        rw [Finset.card_insert_of_not_mem hnot]
        simp only [if_true] at this
        push_cast
        omega

theorem bmLoop_le_naiveCount (text pattern : Str) (bc gs : List Int) (hne : pattern ≠ [])
    (fuel : Nat) (i cnt c : Int) (h : bmLoop text pattern bc gs fuel i cnt = some c) :
    c ≤ cnt + (naiveCount text pattern : Int) := by
  obtain ⟨n, _, hex⟩ := bmLoop_exitsIn text pattern bc gs fuel i cnt c h
  obtain ⟨V, hV, hcount⟩ := exitsIn_count text pattern bc gs hne n i hex
  rw [hcount fuel cnt c h]
  have hsub : V ⊆ ((List.range (text.length + 1 - pattern.length)).filter
      (fun i => decide (occursAt text pattern i))).toFinset := by
    intro q hq
    obtain ⟨h1, h2, _⟩ := hV q hq
    rw [List.mem_toFinset, List.mem_filter, List.mem_range]
    exact ⟨by omega, by simpa using h2⟩
  have h1 := Finset.card_le_card hsub
  have h2 := List.toFinset_card_le ((List.range (text.length + 1 - pattern.length)).filter
      (fun i => decide (occursAt text pattern i)))
  unfold naiveCount
  omega

/-! ## Boyer-Moore: the good-suffix table and the progress of the scan -/

theorem wrI_some (v : List Int) (k x : Int) (v' : List Int) (h : wrI v k x = some v') :
    0 ≤ k ∧ k.toNat < v.length ∧ v' = v.set k.toNat x := by
  unfold wrI at h
  split at h
  · next hk => exact ⟨hk.1, hk.2, (Option.some.inj h).symm⟩
  · exact absurd h (by simp)

theorem rdI_some (v : List Int) (k x : Int) (h : rdI v k = some x) :
    0 ≤ k ∧ k.toNat < v.length ∧ v[k.toNat]? = some x := by
  unfold rdI at h
  split at h
  · next hk =>
    refine ⟨hk, ?_, h⟩
    by_contra hlt
    rw [List.getElem?_eq_none_iff.mpr (by omega)] at h
    exact absurd h (by simp)
  · exact absurd h (by simp)

/-- C17: for a non-empty pattern and a target `k ≥ 1`, when `boyerMooreSearch`
returns 1 the pattern stands in the text at `k` or more distinct offsets.  More
generally the count returned by the scan over any bad-character and good-suffix
tables, with any bound on the number of iterations, is at most the number of
offsets at which the pattern stands in the text. -/
theorem boyerMooreSearch_no_overcount (text pattern : Str) (targetCount : Int)
    (hne : pattern ≠ []) (_hk : 1 ≤ targetCount)
    (h : boyerMooreSearch text pattern targetCount = some 1) :
    targetCount ≤ (naiveCount text pattern : Int) ∧
    ∀ (bc gs : List Int) (fuel : Nat) (c : Int),
      bmLoop text pattern bc gs fuel 0 0 = some c → c ≤ (naiveCount text pattern : Int) := by
  have hgen : ∀ (bc gs : List Int) (fuel : Nat) (c : Int),
      bmLoop text pattern bc gs fuel 0 0 = some c → c ≤ (naiveCount text pattern : Int) := by
    intro bc gs fuel c hc
    simpa using bmLoop_le_naiveCount text pattern bc gs hne fuel 0 0 c hc
  refine ⟨?_, hgen⟩
  unfold boyerMooreSearch at h
  split at h
  · exact absurd (Option.some.inj h) (by decide)
  · cases hc : bmCount text pattern with
    | none => rw [hc] at h; simp at h
    | some c =>
      rw [hc] at h
      simp only at h
      have hge : c ≥ targetCount := by
        by_contra hlt
        rw [if_neg hlt] at h
        exact absurd (Option.some.inj h) (by decide)
      unfold bmCount at hc
      cases hg : preprocessGoodSuffix pattern (List.replicate pattern.length 0) with
      | none => rw [hg] at hc; simp at hc
      | some gs =>
        rw [hg] at hc
        have := hgen _ gs _ c hc
        omega

/-- Witness of C17: on text "aaaa" and pattern "aa" the target 3 is met, and the
pattern stands at 3 offsets. -/
theorem boyerMooreSearch_no_overcount_witness :
    boyerMooreSearch (ascii "aaaa") (ascii "aa") 3 = some 1 ∧
    (3 : Int) ≤ (naiveCount (ascii "aaaa") (ascii "aa") : Int) :=
  ⟨by decide,
   (boyerMooreSearch_no_overcount (ascii "aaaa") (ascii "aa") 3 (by decide) (by decide)
     (by decide)).1⟩

/-! ## Boyer-Moore: the first pass of the good-suffix preprocessing -/

/-- Whenever the guard `i > lastPos` of line 120 holds, the index
`i + pLen - 1 - lastPos` is at least `pLen`: the read of `suffix` is out of
bounds and the iteration has no defined result. -/
theorem suffixStep_guard_out_of_bounds (pattern : Str) (i : Int) (suffix : List Int)
    (lastPos : Int) (hlen : suffix.length = pattern.length) (h : lastPos < i) :
    suffixStep pattern i suffix lastPos = none := by
  unfold suffixStep
  rw [if_pos h]
  have : rdI suffix (i + (pattern.length : Int) - 1 - lastPos) = none := by
    unfold rdI
    split
    · rw [List.getElem?_eq_none_iff]; omega
    · rfl
  rw [this]

/-- The inner loop of the first pass stops at the first mismatch below its entry
point, or at -1. -/
theorem suffixWhile_spec (pattern : Str) (i : Int) : ∀ (n : Nat) (r : Int),
    suffixWhile pattern i n = some r →
    -1 ≤ r ∧ r < (n : Int) ∧
    (∀ t : Nat, r < (t : Int) → t < n →
      ∃ a, rdB pattern (t : Int) = some a ∧
        rdB pattern ((t : Int) + (pattern.length : Int) - 1 - i) = some a) ∧
    (0 ≤ r → rdB pattern r ≠ rdB pattern (r + (pattern.length : Int) - 1 - i)) := by
  intro n
  induction n with
  | zero =>
    intro r h
    rw [suffixWhile] at h
    obtain rfl := Option.some.inj h
    exact ⟨le_refl _, by simp, fun t _ ht => by omega, fun h0 => by omega⟩
  | succ n ih =>
    intro r h
    rw [suffixWhile] at h
    cases h1 : rdB pattern (n : Int) with
    | none => rw [h1] at h; simp at h
    | some a =>
      cases h2 : rdB pattern ((n : Int) + (pattern.length : Int) - 1 - i) with
      | none => rw [h1, h2] at h; simp at h
      | some b =>
        rw [h1, h2] at h
        simp only at h
        split at h
        · next hab =>
          obtain ⟨r1, r2, r3, r4⟩ := ih r h
          refine ⟨r1, by push_cast; omega, ?_, r4⟩
          intro t ht htn
          by_cases hte : t = n
          · subst hte; exact ⟨a, h1, by rw [h2, hab]⟩
          · exact r3 t ht (by omega)
        · next hab =>
          obtain rfl := Option.some.inj h
          refine ⟨by omega, by push_cast; omega, fun t ht htn => by omega, ?_⟩
          intro _
          rw [h1, h2]
          exact fun e => hab (Option.some.inj e)

/-- An iteration of the first pass that has a result took the else branch with
`lastPos ≥ i`, so it compared from position `i` on. -/
theorem suffixStep_some (pattern : Str) (i : Nat) (suffix : List Int) (lastPos : Int)
    (s1 : List Int) (lp1 : Int) (hlen : suffix.length = pattern.length)
    (h : suffixStep pattern (i : Int) suffix lastPos = some (s1, lp1)) :
    suffixWhile pattern (i : Int) (i + 1) = some lp1 ∧
    i < suffix.length ∧ s1 = suffix.set i ((i : Int) - lp1) := by
  have hle : ¬ lastPos < (i : Int) := by
    intro hlt
    rw [suffixStep_guard_out_of_bounds pattern _ suffix lastPos hlen hlt] at h
    exact absurd h (by simp)
  unfold suffixStep at h
  rw [if_neg (by simpa using hle)] at h
  unfold suffixElse at h
  have hmin : min (i : Int) lastPos = (i : Int) := min_eq_left (by omega)
  simp only [hmin] at h
  rw [if_neg (by omega)] at h
  simp only [Int.toNat_ofNat] at h
  cases hw : suffixWhile pattern (i : Int) (i + 1) with
  | none => rw [hw] at h; simp at h
  | some r =>
    rw [hw] at h
    simp only at h
    cases hwr : wrI suffix (i : Int) ((i : Int) - r) with
    | none => rw [hwr] at h; simp at h
    | some s2 =>
      rw [hwr] at h
      obtain ⟨rfl, rfl⟩ := Prod.mk.inj (Option.some.inj h)
      obtain ⟨_, hlt, hs⟩ := wrI_some _ _ _ _ hwr
      simp only [Int.toNat_ofNat] at hlt hs
      exact ⟨rfl, hlt, hs⟩

/-- A common suffix of length `k`, byte by byte. -/
theorem isCommonSuffix_iff (pattern : Str) (i k : Nat) (hi : i + 1 ≤ pattern.length)
    (hk : k ≤ i + 1) :
    isCommonSuffix pattern i k = true ↔
      ∀ u : Nat, u < k → pattern[i + 1 - k + u]? = pattern[pattern.length - k + u]? := by
  unfold isCommonSuffix
  simp only [Bool.and_eq_true, decide_eq_true_eq, beq_iff_eq]
  constructor
  · rintro ⟨_, heq⟩ u hu
    have := congrArg (fun l => l[u]?) heq
    simp only [List.getElem?_drop, List.getElem?_take_of_lt (show i + 1 - k + u < i + 1 by omega)]
      at this
    exact this
  · intro hall
    refine ⟨hk, ?_⟩
    apply List.ext_getElem?
    intro u
    by_cases hu : u < k
    · rw [List.getElem?_drop, List.getElem?_drop,
        List.getElem?_take_of_lt (show i + 1 - k + u < i + 1 by omega)]
      exact hall u hu
    · rw [List.getElem?_eq_none_iff.mpr (by simp; omega),
        List.getElem?_eq_none_iff.mpr (by simp; omega)]

theorem foldl_max_nat (l : List Nat) : ∀ a : Nat,
    a ≤ l.foldl max a ∧ (∀ x ∈ l, x ≤ l.foldl max a) ∧
    (l.foldl max a = a ∨ l.foldl max a ∈ l) := by
  induction l with
  | nil => intro a; simp
  | cons q rest ih =>
    intro a
    obtain ⟨h1, h2, h3⟩ := ih (max a q)
    simp only [List.foldl_cons]
    refine ⟨le_trans (le_max_left _ _) h1, ?_, ?_⟩
    · intro x hx
      rcases List.mem_cons.mp hx with h | h
      · subst h; exact le_trans (le_max_right _ _) h1
      · exact h2 x h
    · rcases h3 with h | h
      · rcases le_total a q with hle | hle
        · right; rw [h, max_eq_right hle]; exact List.mem_cons_self _ _
        · left; rw [h, max_eq_left hle]
      · right; exact List.mem_cons_of_mem _ h

/-- The inner loop entered at position `i` finds the longest common suffix. -/
theorem commonSuffixLen_eq (pattern : Str) (i : Nat) (r : Int) (hi : i + 2 ≤ pattern.length)
    (h : suffixWhile pattern (i : Int) (i + 1) = some r) :
    (commonSuffixLen pattern i : Int) = (i : Int) - r := by
  obtain ⟨r1, r2, r3, r4⟩ := suffixWhile_spec pattern (i : Int) (i + 1) r h
  push_cast at r2
  obtain ⟨k0, hk0⟩ : ∃ k0 : Nat, (k0 : Int) = (i : Int) - r := ⟨((i : Int) - r).toNat, by omega⟩
  rw [← hk0]
  have hchar : ∀ k : Nat, k ≤ i + 1 → (isCommonSuffix pattern i k = true ↔ k ≤ k0) := by
    intro k hk
    rw [isCommonSuffix_iff pattern i k (by omega) hk]
    constructor
    · intro hall
      by_contra hgt
      have hr0 : 0 ≤ r := by omega
      have hu := hall (k - k0 - 1) (by omega)
      apply r4 hr0
      unfold rdB
      rw [if_pos hr0, if_pos (by omega)]
      have e1 : r.toNat = i + 1 - k + (k - k0 - 1) := by omega
      have e2 : (r + (pattern.length : Int) - 1 - (i : Int)).toNat
          = pattern.length - k + (k - k0 - 1) := by omega
      rw [e1, e2]
      exact hu
    · intro hle u hu
      obtain ⟨a, ha, hb⟩ := r3 (i + 1 - k + u) (by omega) (by omega)
      have e1 := (rdB_some _ _ _ ha).2
      have e2 := (rdB_some _ _ _ hb).2
      simp only [Int.toNat_ofNat] at e1
      have e3 : (((i + 1 - k + u : Nat) : Int) + (pattern.length : Int) - 1 - (i : Int)).toNat
          = pattern.length - k + u := by omega
      rw [e3] at e2
      rw [e1, e2]
  unfold commonSuffixLen
  obtain ⟨_, h2, h3⟩ := foldl_max_nat ((List.range (i + 2)).filter (isCommonSuffix pattern i)) 0
  have hk0le : k0 ≤ i + 1 := by omega
  have hmem : k0 ∈ (List.range (i + 2)).filter (isCommonSuffix pattern i) := by
    rw [List.mem_filter, List.mem_range]
    exact ⟨by omega, (hchar k0 hk0le).mpr (le_refl _)⟩
  have hge := h2 k0 hmem
  have hle : ((List.range (i + 2)).filter (isCommonSuffix pattern i)).foldl max 0 ≤ k0 := by
    rcases h3 with h0 | hin
    · rw [h0]; exact Nat.zero_le _
    · rw [List.mem_filter, List.mem_range] at hin
      exact (hchar _ (by omega)).mp hin.2
  omega

theorem suffixLoop_spec (pattern : Str) : ∀ (n : Nat) (suffix : List Int) (lastPos : Int)
    (s' : List Int) (lp' : Int),
    suffixLoop pattern n suffix lastPos = some (s', lp') →
    suffix.length = pattern.length → n + 1 ≤ pattern.length →
    s'.length = pattern.length ∧
    (∀ i, i < n → s'[i]? = some (commonSuffixLen pattern i : Int)) ∧
    (∀ k, n ≤ k → s'[k]? = suffix[k]?) := by
  intro n
  induction n with
  | zero =>
    intro suffix lastPos s' lp' h hlen _
    rw [suffixLoop] at h
    obtain ⟨rfl, rfl⟩ := Prod.mk.inj (Option.some.inj h)
    exact ⟨hlen, fun i hi => by omega, fun k _ => rfl⟩
  | succ n ih =>
    intro suffix lastPos s' lp' h hlen hn
    rw [suffixLoop] at h
    cases hs : suffixStep pattern (n : Int) suffix lastPos with
    | none => rw [hs] at h; simp at h
    | some r =>
      obtain ⟨s1, lp1⟩ := r
      rw [hs] at h
      simp only at h
      obtain ⟨hw, hlt, rfl⟩ := suffixStep_some pattern n suffix lastPos s1 lp1 hlen hs
      obtain ⟨h1, h2, h3⟩ := ih _ lp1 s' lp' h (by rw [List.length_set]; exact hlen) (by omega)
      refine ⟨h1, ?_, ?_⟩
      · intro i hi
        by_cases hin : i = n
        · subst hin
          rw [h3 i (le_refl _), List.getElem?_set_self hlt,
            commonSuffixLen_eq pattern i lp1 (by omega) hw]
        · exact h2 i (by omega)
      · intro k hk
        rw [h3 k (by omega), List.getElem?_set_ne (by omega)]

/-- Whenever the first pass of `preprocessGoodSuffix` stays in bounds, the array
`suffix` holds at every position `i ≤ pLen - 2` the length of the longest common
suffix of `pattern[0 .. i]` and the pattern. -/
theorem suffixArray_spec (pattern : Str) (suffix : List Int)
    (h : suffixArray pattern = some suffix) (i : Nat) (hi : i + 2 ≤ pattern.length) :
    suffix[i]? = some (commonSuffixLen pattern i : Int) := by
  unfold suffixArray at h
  cases hl : suffixLoop pattern (pattern.length - 1) (List.replicate pattern.length 0)
      ((pattern.length : Int) - 1) with
  | none => rw [hl] at h; simp at h
  | some r =>
    obtain ⟨s', lp'⟩ := r
    rw [hl] at h
    obtain rfl := Option.some.inj h
    exact (suffixLoop_spec pattern _ _ _ _ lp' hl (by simp) (by omega)).2.1 i (by omega)

/-- C11 fails at the pattern "aaa", position 0.  The longest common suffix of
`pattern[0 .. 0]` and the pattern has length 1 (and at position 1 it has length 2,
which the code finds).  The iteration `i = 0` of the first pass, entered with
`suffix = [0, 2, 0]` and `lastPos = -1`, has no defined result, so the first pass
yields no array. -/
theorem suffixArray_aaa_undefined :
    commonSuffixLen (ascii "aaa") 1 = 2 ∧
    commonSuffixLen (ascii "aaa") 0 = 1 ∧
    suffixLoop (ascii "aaa") 1 [0, 2, 0] (-1) = none ∧
    suffixLoop (ascii "aaa") 2 [0, 0, 0] 2 = none ∧
    suffixArray (ascii "aaa") = none := by
  decide

/-- C16 fails at the pattern "abab" (text "abab").  The iterations `i = 2` and
`i = 1` of the first pass of `preprocessGoodSuffix` leave `suffix = [0, 2, 0, 0]` and
`lastPos = -1`; the iteration `i = 0` reads `suffix[i + pLen - 1 - lastPos]`, that
is `suffix[4]`, in a vector of 4 elements. -/
theorem preprocessGoodSuffix_abab_out_of_bounds :
    suffixStep (ascii "abab") 2 [0, 0, 0, 0] 3 = some ([0, 0, 0, 0], 2) ∧
    suffixStep (ascii "abab") 1 [0, 0, 0, 0] 2 = some ([0, 2, 0, 0], -1) ∧
    (0 : Int) + ((ascii "abab").length : Int) - 1 - (-1) = 4 ∧
    ([0, 2, 0, 0] : List Int).length = 4 ∧
    rdI [0, 2, 0, 0] 4 = none ∧
    suffixStep (ascii "abab") 0 [0, 2, 0, 0] (-1) = none ∧
    preprocessGoodSuffix (ascii "abab") [0, 0, 0, 0] = none ∧
    boyerMooreSearch (ascii "abab") (ascii "abab") 1 = none := by
  decide

end ACD4
